import Mathlib

/-!
# Verification of the Kakuro CSP solver

A shallow embedding of the Kakuro constraint-satisfaction solver
(`src/main.py`, with the variant `src/kakuro_csp_colab_simple.py`) in Lean 4,
together with theorems settling the specification claims.

Modelling conventions:
* Python ints are `Nat` (or `Int` where a value can go negative, such as
  `Run.min_remaining` differences); Python lists are `List`; Python dicts are
  association lists with first-key-wins lookup and update-or-append insertion
  (insertion order preserved, as in CPython 3.7+); Python sets of digits are
  `Finset Nat`.
* Recursions that Python bounds only by a decreasing numeric argument are
  written with an explicit structural fuel so that every definition computes
  by kernel reduction; a fuel-irrelevance lemma and a recurrence theorem show
  that the fuelled definition satisfies exactly the source's equations.
* Crashing Python operations (KeyError, popping an empty list, an index out
  of range) are modelled by `Option`, with `none` for the raised exception.
-/

/-! ## Combination generator (`get_sums`, `get_unique_sums`, `combinations`)

`get_sums` in `src/main.py` (and identically in
`src/kakuro_csp_colab_simple.py`):

    if count == 2:
        sums = [[target - x, x] for x in range(1, target - 1)
                if target - x != x and x < 10 and (target - x) < 10]
    else:
        sums = []
        for x in range(1, target - 1):
            sums.extend([sum + [x] for sum in get_sums(target - x, count - 1)
                         if x not in sum and x < 10])
    return sums

Every recursive call strictly decreases `target` (the loop variable `x` is at
least 1), so `target` itself serves as structural fuel.  Python's `count`
can reach negative values internally (for external `count <= 1` the recursion
walks `count` below zero until the `range` is empty); with `Nat` truncation
`count - 1` stops at `0`, and both recursions return `[]` on that whole
region, which `get_sums_low` below records. -/

def gsF : Nat → Nat → Nat → List (List Nat)
  | 0, _, _ => []
  | fuel + 1, target, count =>
    if count = 2 then
      ((List.range' 1 (target - 2)).filter
          (fun x => decide (target - x ≠ x) && decide (x < 10) && decide (target - x < 10))).map
        (fun x => [target - x, x])
    else
      (List.range' 1 (target - 2)).flatMap
        (fun x =>
          ((gsF fuel (target - x) (count - 1)).filter
              (fun s => decide (x ∉ s) && decide (x < 10))).map
            (fun s => s ++ [x]))

/-- `get_sums target count` of `src/main.py` lines 59–96 (the pure
recursion; the `Memoize` wrapper is modelled separately below and proved
result-identical). -/
def get_sums (target count : Nat) : List (List Nat) :=
  gsF target target count

theorem gsF_target_zero (fuel count : Nat) : gsF fuel 0 count = [] := by
  cases fuel with
  | zero => rfl
  | succ fuel =>
    simp only [gsF]
    split <;> simp

theorem gsF_fuel_mono :
    ∀ target fuel₁ fuel₂ count, target ≤ fuel₁ → target ≤ fuel₂ →
      gsF fuel₁ target count = gsF fuel₂ target count := by
  intro target
  induction target using Nat.strong_induction_on with
  | _ target ih =>
    intro fuel₁ fuel₂ count h₁ h₂
    match fuel₁, fuel₂ with
    | 0, fuel₂ =>
      have : target = 0 := by omega
      subst this
      rw [gsF_target_zero, gsF_target_zero]
    | fuel₁ + 1, 0 =>
      have : target = 0 := by omega
      subst this
      rw [gsF_target_zero, gsF_target_zero]
    | fuel₁ + 1, fuel₂ + 1 =>
      simp only [gsF]
      rcases Nat.decEq count 2 with hc | hc
      · rw [if_neg hc, if_neg hc]
        apply List.flatMap_congr
        intro x hx
        obtain ⟨i, hi, rfl⟩ := List.mem_range'.mp hx
        rw [ih (target - (1 + 1 * i)) (by omega) fuel₁ fuel₂ (count - 1) (by omega) (by omega)]
      · rw [if_pos hc, if_pos hc]

theorem gsF_low : ∀ fuel target count, count ≤ 1 → gsF fuel target count = [] := by
  intro fuel
  induction fuel with
  | zero => intro target count _; rfl
  | succ fuel ih =>
    intro target count hc
    have h2 : count ≠ 2 := by omega
    simp only [gsF, if_neg h2]
    apply List.flatMap_eq_nil_iff.mpr
    intro x _
    have : count - 1 ≤ 1 := by omega
    rw [ih (target - x) (count - 1) this]
    rfl

/-- `get_sums` satisfies exactly the source recursion of `src/main.py`
lines 85–96 (and `src/kakuro_csp_colab_simple.py` lines 33–45): base case
`count == 2` enumerates pairs over `range(1, target - 1)`; the recursive case
extends every recursive combination avoiding the chosen digit.  This
discharges the fuel artefact of `gsF`. -/
theorem get_sums_eq (target count : Nat) :
    get_sums target count =
      if count = 2 then
        ((List.range' 1 (target - 2)).filter
            (fun x => decide (target - x ≠ x) && decide (x < 10) && decide (target - x < 10))).map
          (fun x => [target - x, x])
      else
        (List.range' 1 (target - 2)).flatMap
          (fun x =>
            ((get_sums (target - x) (count - 1)).filter
                (fun s => decide (x ∉ s) && decide (x < 10))).map
              (fun s => s ++ [x])) := by
  show gsF target target count = _
  rw [gsF_fuel_mono target target (target + 1) count (le_refl _) (by omega)]
  simp only [gsF]
  rcases Nat.decEq count 2 with hc | hc
  · rw [if_neg hc, if_neg hc]
    apply List.flatMap_congr
    intro x hx
    obtain ⟨i, hi, rfl⟩ := List.mem_range'.mp hx
    rw [gsF_fuel_mono (target - (1 + 1 * i)) target (target - (1 + 1 * i)) (count - 1)
      (by omega) (le_refl _)]
    rfl
  · rw [if_pos hc, if_pos hc]

/-- `get_unique_sums target count` of `src/main.py` lines 99–128: each raw
combination is sorted ascending (Python `tuple(sorted(sum))`) and the results
are deduplicated through a set.  A CPython set iterates in hash order; the
model returns first occurrences in order, which has the same elements. -/
def get_unique_sums (target count : Nat) : List (List Nat) :=
  ((get_sums target count).map (fun s => s.insertionSort (· ≤ ·))).dedup

/-- The invariant of every raw combination: `count` digits, no repeats,
digits in `[1,9]`, summing to `target`. -/
theorem get_sums_invariant :
    ∀ target count s, s ∈ get_sums target count →
      s.length = count ∧ s.Nodup ∧ (∀ d ∈ s, 1 ≤ d ∧ d ≤ 9) ∧ s.sum = target := by
  intro target
  induction target using Nat.strong_induction_on with
  | _ target ih =>
    intro count s hs
    rw [get_sums_eq] at hs
    rcases Nat.decEq count 2 with hc | hc
    · rw [if_neg hc] at hs
      rw [List.mem_flatMap] at hs
      obtain ⟨x, hx, hs⟩ := hs
      obtain ⟨i, hi, rfl⟩ := List.mem_range'.mp hx
      set y := 1 + 1 * i with hy
      rw [List.mem_map] at hs
      obtain ⟨s₀, hs₀, rfl⟩ := hs
      rw [List.mem_filter] at hs₀
      obtain ⟨hmem, hcond⟩ := hs₀
      have hxny : y ∉ s₀ ∧ y < 10 := by
        have := of_decide_eq_true (Bool.and_elim_left hcond)
        have := of_decide_eq_true (Bool.and_elim_right hcond)
        exact ⟨by assumption, by assumption⟩
      rcases le_or_lt count 1 with hcl | hcl
      · rw [show get_sums (target - y) (count - 1) = gsF (target - y) (target - y) (count - 1)
          from rfl, gsF_low _ _ _ (by omega)] at hmem
        simp at hmem
      · obtain ⟨hlen, hnodup, hdig, hsum⟩ := ih (target - y) (by omega) (count - 1) s₀ hmem
        refine ⟨?_, ?_, ?_, ?_⟩
        · rw [List.length_append, hlen]
          simp only [List.length_singleton]
          omega
        · rw [List.nodup_append]
          exact ⟨hnodup, List.nodup_singleton _,
            by intro a ha hb; rw [List.mem_singleton] at hb; subst hb; exact hxny.1 ha⟩
        · intro d hd
          rw [List.mem_append] at hd
          rcases hd with hd | hd
          · exact hdig d hd
          · rw [List.mem_singleton] at hd
            subst hd
            constructor
            · omega
            · omega
        · rw [List.sum_append, hsum]
          simp only [List.sum_singleton]
          omega
    · subst hc
      rw [if_pos rfl] at hs
      rw [List.mem_map] at hs
      obtain ⟨x, hx, rfl⟩ := hs
      rw [List.mem_filter] at hx
      obtain ⟨hmem, hcond⟩ := hx
      obtain ⟨i, hi, rfl⟩ := List.mem_range'.mp hmem
      set y := 1 + 1 * i with hy
      have h1 : target - y ≠ y := of_decide_eq_true
        (Bool.and_elim_left (Bool.and_elim_left hcond))
      have h2 : y < 10 := of_decide_eq_true
        (Bool.and_elim_right (Bool.and_elim_left hcond))
      have h3 : target - y < 10 := of_decide_eq_true (Bool.and_elim_right hcond)
      refine ⟨rfl, ?_, ?_, ?_⟩
      · simp [h1]
      · intro d hd
        simp only [List.mem_cons, List.mem_singleton, List.not_mem_nil, or_false] at hd
        rcases hd with rfl | rfl
        · exact ⟨by omega, by omega⟩
        · exact ⟨by omega, by omega⟩
      · simp only [List.sum_cons, List.sum_nil, Nat.add_zero]
        omega

/-- C3: every element of `get_unique_sums(target, count)` is a sorted tuple
of exactly `count` digits, all distinct, each in `[1,9]`, summing exactly to
`target`.  (`Run.__init__` stores `self.sequences = get_unique_sums(total,
length)`, so every Run's stored combination set inherits the run-length,
no-repeat, digit-range and sum invariants.) -/
theorem C3_get_unique_sums_invariant (target count : Nat) (s : List Nat)
    (hs : s ∈ get_unique_sums target count) :
    s.Sorted (· ≤ ·) ∧ s.length = count ∧ s.Nodup ∧
      (∀ d ∈ s, 1 ≤ d ∧ d ≤ 9) ∧ s.sum = target := by
  rw [get_unique_sums, List.mem_dedup, List.mem_map] at hs
  obtain ⟨s₀, hs₀, rfl⟩ := hs
  obtain ⟨hlen, hnodup, hdig, hsum⟩ := get_sums_invariant target count s₀ hs₀
  have hperm : (s₀.insertionSort (· ≤ ·)).Perm s₀ := List.perm_insertionSort _ _
  refine ⟨List.sorted_insertionSort _ _, ?_, ?_, ?_, ?_⟩
  · rw [hperm.length_eq, hlen]
  · exact hperm.nodup_iff.mpr hnodup
  · intro d hd
    exact hdig d (hperm.mem_iff.mp hd)
  · rw [hperm.sum_eq, hsum]

theorem C3_get_unique_sums_invariant_witness :
    [1, 5] ∈ get_unique_sums 6 2 ∧
      ([1, 5] : List Nat).Sorted (· ≤ ·) ∧ ([1, 5] : List Nat).length = 2 ∧
        ([1, 5] : List Nat).Nodup ∧ (∀ d ∈ ([1, 5] : List Nat), 1 ≤ d ∧ d ≤ 9) ∧
          ([1, 5] : List Nat).sum = 6 :=
  ⟨by decide, C3_get_unique_sums_invariant 6 2 [1, 5] (by decide)⟩

/-! ## `combinations` (permutation generator, `src/main.py` lines 131–158)

    if len(nums) == 2:
        return [[nums[0], nums[1]], [nums[1], nums[0]]]
    else:
        for num in nums:
            nums2 = nums[:]
            nums2.remove(num)
            combos.extend([x + [num] for x in combinations(nums2)])

`nums2.remove(num)` deletes the first occurrence, i.e. `List.erase`.  The
recursion strictly decreases the list length, which serves as fuel. -/

def combosF : Nat → List Nat → List (List Nat)
  | 0, _ => []
  | fuel + 1, nums =>
    match nums with
    | [a, b] => [[a, b], [b, a]]
    | _ => nums.flatMap (fun num => (combosF fuel (nums.erase num)).map (fun x => x ++ [num]))

def combinations (nums : List Nat) : List (List Nat) :=
  combosF nums.length nums

theorem combosF_nil (fuel : Nat) : combosF fuel [] = [] := by
  cases fuel <;> rfl

theorem combosF_fuel_mono :
    ∀ n nums fuel₁ fuel₂, nums.length ≤ n → nums.length ≤ fuel₁ → nums.length ≤ fuel₂ →
      combosF fuel₁ nums = combosF fuel₂ nums := by
  intro n
  induction n with
  | zero =>
    intro nums fuel₁ fuel₂ hn _ _
    have : nums = [] := List.length_eq_zero.mp (by omega)
    subst this
    rw [combosF_nil, combosF_nil]
  | succ n ih =>
    intro nums fuel₁ fuel₂ hn h₁ h₂
    match fuel₁, fuel₂ with
    | 0, fuel₂ =>
      have : nums = [] := List.length_eq_zero.mp (by omega)
      subst this
      rw [combosF_nil, combosF_nil]
    | fuel₁ + 1, 0 =>
      have : nums = [] := List.length_eq_zero.mp (by omega)
      subst this
      rw [combosF_nil, combosF_nil]
    | fuel₁ + 1, fuel₂ + 1 =>
      match nums, hn, h₁, h₂ with
      | [a, b], _, _, _ => rfl
      | [], _, _, _ => rfl
      | [a], _, _, _ =>
        simp only [combosF]
        apply List.flatMap_congr
        intro num hnum
        rw [List.mem_singleton] at hnum
        subst hnum
        rw [List.erase_cons_head, combosF_nil, combosF_nil]
      | a :: b :: c :: rest, hn, h₁, h₂ =>
        simp only [combosF]
        apply List.flatMap_congr
        intro num hnum
        have hlen : ((a :: b :: c :: rest).erase num).length = (a :: b :: c :: rest).length - 1 :=
          List.length_erase_of_mem hnum
        simp only [List.length_cons] at hlen hn h₁ h₂
        rw [ih _ fuel₁ fuel₂ (by omega) (by omega) (by omega)]

/-- `combinations` satisfies exactly the source recursion of `src/main.py`
lines 150–158, discharging the fuel artefact of `combosF`. -/
theorem combinations_eq (nums : List Nat) :
    combinations nums =
      match nums with
      | [a, b] => [[a, b], [b, a]]
      | _ => nums.flatMap
          (fun num => (combinations (nums.erase num)).map (fun x => x ++ [num])) := by
  match nums with
  | [a, b] => rfl
  | [] => rfl
  | [a] =>
    show [a].flatMap
        (fun num => (combosF 0 ([a].erase num)).map (fun x => x ++ [num])) =
      [a].flatMap
        (fun num => (combinations ([a].erase num)).map (fun x => x ++ [num]))
    simp only [List.flatMap_cons, List.flatMap_nil, List.erase_cons_head]
    rfl
  | a :: b :: c :: rest =>
    show (a :: b :: c :: rest).flatMap
        (fun num => (combosF (rest.length + 2) ((a :: b :: c :: rest).erase num)).map
          (fun x => x ++ [num])) =
      (a :: b :: c :: rest).flatMap
        (fun num => (combinations ((a :: b :: c :: rest).erase num)).map
          (fun x => x ++ [num]))
    apply List.flatMap_congr
    intro num hnum
    have hlen : ((a :: b :: c :: rest).erase num).length = rest.length + 2 := by
      rw [List.length_erase_of_mem hnum]
      simp
    rw [combosF_fuel_mono (rest.length + 2) ((a :: b :: c :: rest).erase num)
      (rest.length + 2) ((a :: b :: c :: rest).erase num).length
      (by omega) (by omega) (by omega)]
    rfl

/-! ## The `Memoize` decorator (`src/main.py` lines 39–57)

    def __call__(self, *args):
        if not args in self.memo:
            self.memo[args] = self.f(*args)
        return self.memo[args]

In `src/main.py` `get_sums` is wrapped by `Memoize`, and its internal
recursive calls go through the decorated function, threading the same cache.
The cache is a Python dict keyed by `(target, count)`; model: an association
list with first-match lookup and update-or-append insertion. -/

abbrev Cache := List ((Nat × Nat) × List (List Nat))

def cacheLookup : Cache → Nat × Nat → Option (List (List Nat))
  | [], _ => none
  | (k', v) :: rest, k => if k' = k then some v else cacheLookup rest k

def cacheInsert : Cache → Nat × Nat → List (List Nat) → Cache
  | [], k, v => [(k, v)]
  | (k', v') :: rest, k, v =>
    if k' = k then (k', v) :: rest else (k', v') :: cacheInsert rest k v

def gsMemoF : Nat → Nat → Nat → Cache → List (List Nat) × Cache
  | fuel, target, count, memo =>
    match cacheLookup memo (target, count) with
    | some v => (v, memo)
    | none =>
      let r :=
        match fuel with
        | 0 => ([], memo)
        | fuel + 1 =>
          if count = 2 then
            (((List.range' 1 (target - 2)).filter
                (fun x => decide (target - x ≠ x) && decide (x < 10) &&
                  decide (target - x < 10))).map (fun x => [target - x, x]), memo)
          else
            (List.range' 1 (target - 2)).foldl
              (fun (acc : List (List Nat) × Cache) x =>
                let sub := gsMemoF fuel (target - x) (count - 1) acc.2
                (acc.1 ++ (sub.1.filter
                    (fun s => decide (x ∉ s) && decide (x < 10))).map (fun s => s ++ [x]),
                  sub.2))
              ([], memo)
      (r.1, cacheInsert r.2 (target, count) r.1)

/-- `get_sums` of `src/main.py` as actually called: the `Memoize`-decorated
function, taking and returning the decorator's cache. -/
def get_sums_memo (target count : Nat) (memo : Cache) : List (List Nat) × Cache :=
  gsMemoF target target count memo

/-- A cache is correct when every stored entry equals the unmemoized
`get_sums` at its key. -/
def CacheOK (memo : Cache) : Prop :=
  ∀ t c v, cacheLookup memo (t, c) = some v → v = get_sums t c

theorem cacheLookup_insert (memo : Cache) (k k' : Nat × Nat) (v : List (List Nat)) :
    cacheLookup (cacheInsert memo k v) k' =
      if k = k' then some v else cacheLookup memo k' := by
  induction memo with
  | nil =>
    simp only [cacheInsert, cacheLookup]
  | cons hd tl ih =>
    obtain ⟨k₀, v₀⟩ := hd
    simp only [cacheInsert]
    by_cases h : k₀ = k
    · subst h
      rw [if_pos rfl]
      simp only [cacheLookup]
      by_cases h' : k₀ = k'
      · rw [if_pos h', if_pos h']
      · rw [if_neg h', if_neg h', if_neg h']
    · rw [if_neg h]
      simp only [cacheLookup, ih]
      by_cases h' : k₀ = k'
      · have hne : ¬ k = k' := fun e => h (e ▸ h')
        rw [if_pos h', if_neg hne, if_pos h']
      · rw [if_neg h', if_neg h']

theorem CacheOK_insert (memo : Cache) (kt kc : Nat) (v : List (List Nat))
    (hok : CacheOK memo) (hv : v = get_sums kt kc) :
    CacheOK (cacheInsert memo (kt, kc) v) := by
  intro t c v' h
  rw [cacheLookup_insert] at h
  by_cases hk : (kt, kc) = (t, c)
  · rw [if_pos hk] at h
    cases h
    rw [Prod.mk.injEq] at hk
    obtain ⟨rfl, rfl⟩ := hk
    exact hv
  · rw [if_neg hk] at h
    exact hok t c v' h

theorem gsMemoF_correct :
    ∀ target fuel count memo, target ≤ fuel → CacheOK memo →
      (gsMemoF fuel target count memo).1 = get_sums target count ∧
        CacheOK (gsMemoF fuel target count memo).2 := by
  intro target
  induction target using Nat.strong_induction_on with
  | _ target ih =>
    intro fuel count memo hf hok
    cases hcl : cacheLookup memo (target, count) with
    | some v =>
      have hg : gsMemoF fuel target count memo = (v, memo) := by
        cases fuel <;> simp only [gsMemoF, hcl]
      rw [hg]
      exact ⟨hok target count v hcl, hok⟩
    | none =>
      match fuel, hf with
      | 0, hf =>
        have ht : target = 0 := by omega
        subst ht
        simp only [gsMemoF, hcl]
        refine ⟨rfl, ?_⟩
        exact CacheOK_insert memo 0 count [] hok rfl
      | fuel + 1, hf =>
        rcases Nat.decEq count 2 with hc | hc
        · simp only [gsMemoF, hcl, if_neg hc]
          have hfold : ∀ (l : List Nat), (∀ x ∈ l, 1 ≤ x ∧ x < 1 + (target - 2)) →
              ∀ (acc : List (List Nat)) (m : Cache), CacheOK m →
                ((l.foldl
                    (fun (acc : List (List Nat) × Cache) x =>
                      let sub := gsMemoF fuel (target - x) (count - 1) acc.2
                      (acc.1 ++ (sub.1.filter
                          (fun s => decide (x ∉ s) && decide (x < 10))).map
                            (fun s => s ++ [x]),
                        sub.2))
                    (acc, m)).1 =
                  acc ++ l.flatMap (fun x => ((get_sums (target - x) (count - 1)).filter
                      (fun s => decide (x ∉ s) && decide (x < 10))).map (fun s => s ++ [x])) ∧
                  CacheOK (l.foldl
                    (fun (acc : List (List Nat) × Cache) x =>
                      let sub := gsMemoF fuel (target - x) (count - 1) acc.2
                      (acc.1 ++ (sub.1.filter
                          (fun s => decide (x ∉ s) && decide (x < 10))).map
                            (fun s => s ++ [x]),
                        sub.2))
                    (acc, m)).2) := by
            intro l
            induction l with
            | nil =>
              intro _ acc m hm
              refine ⟨?_, hm⟩
              simp
            | cons x xs ihl =>
              intro hbound acc m hm
              have hx := hbound x (List.mem_cons_self x xs)
              have hrec := ih (target - x) (by omega) fuel (count - 1) m (by omega) hm
              simp only [List.foldl_cons]
              have hxs : ∀ y ∈ xs, 1 ≤ y ∧ y < 1 + (target - 2) :=
                fun y hy => hbound y (List.mem_cons_of_mem x hy)
              obtain ⟨h1, h2⟩ := ihl hxs
                (acc ++ ((gsMemoF fuel (target - x) (count - 1) m).1.filter
                    (fun s => decide (x ∉ s) && decide (x < 10))).map (fun s => s ++ [x]))
                (gsMemoF fuel (target - x) (count - 1) m).2 hrec.2
              refine ⟨?_, h2⟩
              rw [h1, hrec.1, List.flatMap_cons, List.append_assoc]
          obtain ⟨h1, h2⟩ := hfold (List.range' 1 (target - 2))
            (by intro x hx; obtain ⟨i, hi, rfl⟩ := List.mem_range'.mp hx; omega)
            [] memo hok
          constructor
          · rw [h1, List.nil_append, get_sums_eq, if_neg hc]
          · apply CacheOK_insert _ _ _ _ h2
            rw [h1, List.nil_append, get_sums_eq, if_neg hc]
        · subst hc
          simp only [gsMemoF, hcl, if_true]
          constructor
          · rw [get_sums_eq, if_pos (rfl : (2 : Nat) = 2)]
          · apply CacheOK_insert _ _ _ _ hok
            rw [get_sums_eq, if_pos (rfl : (2 : Nat) = 2)]

/-- C10: for every `(target, count)` and every correct cache state, the
`Memoize`-wrapped `get_sums` of `src/main.py` returns exactly the same list
as the unmemoized `get_sums` of `src/kakuro_csp_colab_simple.py` (embedded
here as `get_sums`, whose body is line-for-line the same as `main.py`'s),
and it leaves the cache correct: memoization never changes any result, so the
two solver variants compute identical combination sets. -/
theorem C10_get_sums_memo_refines (target count : Nat) (memo : Cache)
    (hok : CacheOK memo) :
    (get_sums_memo target count memo).1 = get_sums target count ∧
      CacheOK (get_sums_memo target count memo).2 :=
  gsMemoF_correct target target count memo (le_refl _) hok

theorem C10_get_sums_memo_refines_witness :
    CacheOK [] ∧ (get_sums_memo 6 2 []).1 = get_sums 6 2 := by
  have hok : CacheOK [] := fun _ _ _ h => nomatch h
  exact ⟨hok, (C10_get_sums_memo_refines 6 2 [] hok).1⟩

/-! ## The Assignment Store and the shared mutable state

`Solver.solution` is a Python dict `Coordinate -> Digit`; `Run.coord_changes`
is the class-level undo log (a Python list used as a stack: `append` pushes,
`pop` takes from the end — modelled with the list HEAD as the stack top).
`Run.h_guess_coords` / `Run.v_guess_coords` are class-level dicts whose
entries are only ever deleted, never added: modelled by their key lists.
`Run.min_remaining` is a class-level int.  `Solver.solutions` maps the md5
hex digest of `str(sorted(solution.values()))` to a snapshot of the
solution; `Solver.partial` maps the same digests to remaining counts. -/

abbrev Coord := Nat × Nat

abbrev Store := List (Coord × Nat)

def storeLookup : Store → Coord → Option Nat
  | [], _ => none
  | (c', v) :: rest, c => if c' = c then some v else storeLookup rest c

/-- Python dict assignment `d[c] = v`: update in place or append. -/
def storeInsert : Store → Coord → Nat → Store
  | [], c, v => [(c, v)]
  | (c', v') :: rest, c, v =>
    if c' = c then (c', v) :: rest else (c', v') :: storeInsert rest c v

/-- Python `del d[c]` (the `KeyError` on an absent key is checked at call
sites that can raise it). -/
def storeErase : Store → Coord → Store
  | [], _ => []
  | (c', v') :: rest, c => if c' = c then rest else (c', v') :: storeErase rest c

/-- Model of an md5 hex digest of `str(sorted(solution.values()))`: the
digest is identified by the sorted value list it was computed from (md5 is
treated as collision-free), while its Python string length is the constant
32: an md5 hexdigest always has 32 characters. -/
structure Digest where
  content : List Nat
deriving DecidableEq

def Digest.pyLen (_ : Digest) : Nat := 32

/-- The mutable state threaded through the solver: `Solver.solution`,
`Solver.solutions`, `Solver.partial` (instance attributes) and the
class-level `Run.coord_changes`, `Run.h_guess_coords`, `Run.v_guess_coords`,
`Run.min_remaining`, plus the per-run `digit_coords` dictionaries
(`dcs runIdx digit`). -/
structure SState where
  solution : Store
  coord_changes : List Coord
  hGuess : List Coord
  vGuess : List Coord
  min_remaining : Int
  dcs : Nat → Nat → Finset Coord
  solutions : List (Digest × Store)
  partCounts : List (Digest × Int)

/-- `Run.add_found` (`src/main.py` lines 401–408). -/
def add_found (coord : Coord) (found : Nat) (testing : Bool) (s : SState) : SState :=
  { s with
    solution := storeInsert s.solution coord found,
    hGuess := if testing then s.hGuess else s.hGuess.erase coord,
    vGuess := if testing then s.vGuess else s.vGuess.erase coord,
    coord_changes := coord :: s.coord_changes }

/-- The loop of `Run.undo` (`src/main.py` lines 391–399): pop entries off
`coord_changes`, deleting each popped coordinate from the solution, until
the popped coordinate equals `guess_coord`.  `none` models the `IndexError`
of popping an empty list or the `KeyError` of reading an absent key. -/
def undoAux (guess : Coord) : List Coord → Store → Option (List Coord × Store)
  | [], _ => none
  | c :: rest, sol =>
    match storeLookup sol c with
    | none => none
    | some _ =>
      if c = guess then some (rest, storeErase sol c)
      else undoAux guess rest (storeErase sol c)

/-- `Run.undo` on the full state. -/
def undo (guess_coord : Coord) (s : SState) : Option SState :=
  (undoAux guess_coord s.coord_changes s.solution).map
    (fun p => { s with coord_changes := p.1, solution := p.2 })

/-- A sequence of `add_found` commits (each entry: coordinate, digit,
`testing` flag), as performed during speculative testing — directly by
`Run._test`, or by `fill_cells` / `_fill_unique` propagation it triggers. -/
def speculate (commits : List (Coord × Nat × Bool)) (s : SState) : SState :=
  commits.foldl (fun st com => add_found com.1 com.2.1 com.2.2 st) s

theorem storeLookup_append_of_none (s t : Store) (x : Coord)
    (h : storeLookup s x = none) : storeLookup (s ++ t) x = storeLookup t x := by
  induction s with
  | nil => rfl
  | cons hd tl ih =>
    obtain ⟨c', v'⟩ := hd
    simp only [storeLookup] at h ⊢
    by_cases hc : c' = x
    · rw [if_pos hc] at h
      cases h
    · rw [if_neg hc] at h ⊢
      exact ih h

theorem storeInsert_fresh (s : Store) (x : Coord) (v : Nat)
    (h : storeLookup s x = none) : storeInsert s x v = s ++ [(x, v)] := by
  induction s with
  | nil => rfl
  | cons hd tl ih =>
    obtain ⟨c', v'⟩ := hd
    simp only [storeLookup] at h
    simp only [storeInsert]
    by_cases hc : c' = x
    · rw [if_pos hc] at h
      cases h
    · rw [if_neg hc] at h ⊢
      rw [ih h]
      rfl

theorem storeErase_append_of_none (s t : Store) (x : Coord)
    (h : storeLookup s x = none) : storeErase (s ++ t) x = s ++ storeErase t x := by
  induction s with
  | nil => rfl
  | cons hd tl ih =>
    obtain ⟨c', v'⟩ := hd
    simp only [storeLookup] at h
    simp only [storeErase, List.append_eq]
    by_cases hc : c' = x
    · rw [if_pos hc] at h
      cases h
    · rw [if_neg hc] at h ⊢
      rw [ih h]
      rfl

theorem storeLookup_append_none (s t : Store) (x : Coord)
    (hs : storeLookup s x = none) (ht : storeLookup t x = none) :
    storeLookup (s ++ t) x = none := by
  rw [storeLookup_append_of_none s t x hs]
  exact ht

theorem storeLookup_eq_none_of_not_mem (s : Store) (x : Coord)
    (h : x ∉ s.map Prod.fst) : storeLookup s x = none := by
  induction s with
  | nil => rfl
  | cons hd tl ih =>
    obtain ⟨c', v'⟩ := hd
    simp only [List.map_cons, List.mem_cons] at h
    push_neg at h
    simp only [storeLookup]
    rw [if_neg (fun e => h.1 e.symm)]
    exact ih h.2

/-- Core rollback property of the undo loop: if the entries pushed since the
checkpoint `c` are pairwise-distinct coordinates that were all absent from
the store before being committed, popping back to `c` returns exactly the
pre-speculation store and undo log. -/
theorem undoAux_rollback (ps : List (Coord × Nat)) :
    ∀ (pre : Store) (c : Coord) (d : Nat) (stack₀ : List Coord),
      storeLookup pre c = none →
      (∀ x ∈ ps.map Prod.fst, storeLookup pre x = none ∧ x ≠ c) →
      (ps.map Prod.fst).Nodup →
      undoAux c ((ps.map Prod.fst).reverse ++ c :: stack₀) ((pre ++ [(c, d)]) ++ ps) =
        some (stack₀, pre) := by
  induction ps using List.reverseRecOn with
  | nil =>
    intro pre c d stack₀ hc _ _
    simp only [List.map_nil, List.reverse_nil, List.nil_append, List.append_nil, undoAux]
    rw [storeLookup_append_of_none pre [(c, d)] c hc]
    simp only [storeLookup, if_true]
    rw [storeErase_append_of_none pre [(c, d)] c hc]
    simp [storeErase]
  | append_singleton ps' p ih =>
    intro pre c d stack₀ hc hfresh hnodup
    obtain ⟨p1, p2⟩ := p
    rw [List.map_append] at hfresh hnodup ⊢
    simp only [List.map_cons, List.map_nil] at hfresh hnodup ⊢
    have hp := hfresh p1 (by simp)
    have hfresh' : ∀ x ∈ ps'.map Prod.fst, storeLookup pre x = none ∧ x ≠ c :=
      fun x hx => hfresh x (by simp [hx])
    rw [List.nodup_append] at hnodup
    have hnodup' : (ps'.map Prod.fst).Nodup := hnodup.1
    have hp_not : p1 ∉ ps'.map Prod.fst := by
      intro hmem
      exact hnodup.2.2 hmem (by simp)
    rw [List.reverse_append]
    simp only [List.reverse_cons, List.reverse_nil, List.nil_append, List.cons_append]
    rw [← List.append_assoc]
    have hsolp : storeLookup ((pre ++ [(c, d)]) ++ ps') p1 = none := by
      apply storeLookup_append_none
      · apply storeLookup_append_none
        · exact hp.1
        · simp only [storeLookup]
          rw [if_neg (fun e => hp.2 e.symm)]
      · exact storeLookup_eq_none_of_not_mem _ _ hp_not
    simp only [undoAux]
    rw [storeLookup_append_of_none _ _ _ hsolp]
    simp only [storeLookup, if_true]
    rw [if_neg hp.2]
    rw [storeErase_append_of_none _ _ _ hsolp]
    simp only [storeErase, if_true, List.append_nil]
    exact ih pre c d stack₀ hc hfresh' hnodup'

/-- Net effect of a sequence of fresh speculative commits: the solution
grows by exactly the committed pairs (in order) and the undo log gains
exactly the committed coordinates (most recent first). -/
theorem speculate_effect :
    ∀ (commits : List (Coord × Nat × Bool)) (s : SState),
      (∀ x ∈ commits.map Prod.fst, storeLookup s.solution x = none) →
      (commits.map Prod.fst).Nodup →
      (speculate commits s).solution
          = s.solution ++ commits.map (fun t => (t.1, t.2.1)) ∧
        (speculate commits s).coord_changes
          = (commits.map Prod.fst).reverse ++ s.coord_changes := by
  intro commits
  induction commits with
  | nil =>
    intro s _ _
    constructor
    · simp [speculate]
    · simp [speculate]
  | cons com rest ih =>
    intro s hfresh hnodup
    obtain ⟨x, v, b⟩ := com
    simp only [List.map_cons] at hfresh hnodup
    have hx := hfresh x (List.mem_cons_self _ _)
    have hstep : speculate ((x, v, b) :: rest) s = speculate rest (add_found x v b s) := rfl
    rw [hstep]
    have hsol : (add_found x v b s).solution = s.solution ++ [(x, v)] :=
      storeInsert_fresh _ _ _ hx
    have hfresh' : ∀ y ∈ rest.map Prod.fst,
        storeLookup (add_found x v b s).solution y = none := by
      intro y hy
      rw [hsol]
      apply storeLookup_append_none
      · exact hfresh y (List.mem_cons_of_mem _ hy)
      · have hyx : y ≠ x := by
          intro e
          subst e
          exact (List.nodup_cons.mp hnodup).1 hy
        simp only [storeLookup]
        rw [if_neg (fun e => hyx e.symm)]
    obtain ⟨h1, h2⟩ := ih (add_found x v b s) hfresh' (List.nodup_cons.mp hnodup).2
    constructor
    · rw [h1, hsol, List.append_assoc]
      rfl
    · rw [h2]
      have hst : (add_found x v b s).coord_changes = x :: s.coord_changes := rfl
      rw [hst, List.map_cons, List.reverse_cons, List.append_assoc]
      rfl

/-- C2: for a checkpoint coordinate `c` (the first coordinate committed by a
speculative candidate in `Run._test`), after any sequence of speculative
`add_found` commits — including those made by recursive `fill_cells`
propagation — `undo(c)` restores the Assignment Store mapping, its size and
the undo log exactly to their state before the first speculative commit.
The hypotheses are exactly the guards of the source: every `add_found`
during speculation is called only on a coordinate currently absent from the
solution (`if coord not in self.solver.solution`), so the committed
coordinates are fresh and pairwise distinct. -/
theorem C2_undo_rollback (s : SState) (c : Coord) (d : Nat) (tb : Bool)
    (commits : List (Coord × Nat × Bool))
    (hfresh : ∀ x ∈ c :: commits.map Prod.fst, storeLookup s.solution x = none)
    (hnodup : (c :: commits.map Prod.fst).Nodup) :
    ∃ s', undo c (speculate commits (add_found c d tb s)) = some s' ∧
      s'.solution = s.solution ∧ s'.solution.length = s.solution.length ∧
      s'.coord_changes = s.coord_changes := by
  have hc := hfresh c (List.mem_cons_self _ _)
  have hsol1 : (add_found c d tb s).solution = s.solution ++ [(c, d)] :=
    storeInsert_fresh _ _ _ hc
  have hnd := List.nodup_cons.mp hnodup
  have hfr : ∀ x ∈ commits.map Prod.fst,
      storeLookup (add_found c d tb s).solution x = none := by
    intro x hx
    rw [hsol1]
    apply storeLookup_append_none
    · exact hfresh x (List.mem_cons_of_mem _ hx)
    · have hxc : x ≠ c := by
        intro e
        subst e
        exact hnd.1 hx
      simp only [storeLookup]
      rw [if_neg (fun e => hxc e.symm)]
  obtain ⟨hS, hK⟩ := speculate_effect commits (add_found c d tb s) hfr hnd.2
  have hkeys : (commits.map (fun t => (t.1, t.2.1))).map Prod.fst = commits.map Prod.fst := by
    induction commits with
    | nil => rfl
    | cons a l ihl => simp [ihl]
  have hstack1 : (add_found c d tb s).coord_changes = c :: s.coord_changes := rfl
  have hroll := undoAux_rollback (commits.map (fun t => (t.1, t.2.1)))
    s.solution c d s.coord_changes hc
    (by
      intro x hx
      rw [hkeys] at hx
      refine ⟨hfresh x (List.mem_cons_of_mem _ hx), ?_⟩
      intro e
      subst e
      exact hnd.1 hx)
    (by rw [hkeys]; exact hnd.2)
  rw [hkeys] at hroll
  refine ⟨{ speculate commits (add_found c d tb s) with
      coord_changes := s.coord_changes, solution := s.solution }, ?_, rfl, rfl, rfl⟩
  simp only [undo]
  rw [hS, hK, hstack1, hsol1, hroll]
  rfl

theorem C2_undo_rollback_witness :
    ∃ s', undo (1, 0) (speculate [((2, 0), 4, true)]
        (add_found (1, 0) 3 true
          ⟨[((0, 0), 5)], [(0, 0)], [], [], 0, fun _ _ => ∅, [], []⟩)) = some s' ∧
      s'.solution = [((0, 0), 5)] ∧ s'.solution.length = 1 ∧
      s'.coord_changes = [(0, 0)] :=
  C2_undo_rollback ⟨[((0, 0), 5)], [(0, 0)], [], [], 0, fun _ _ => ∅, [], []⟩
    (1, 0) 3 true [((2, 0), 4, true)] (by decide) (by decide)

/-! ## `Solver.add_solution` (`src/main.py` lines 278–291)

    m = hashlib.md5()
    m.update(str(sorted(self.solution.values())).encode('utf-8'))
    if m.hexdigest() not in self.solutions:
        if remaining > 0:
            self.partial[m.hexdigest()] = remaining
        self.solutions[m.hexdigest()] = self.solution.copy()
        new_solution = True
    return new_solution

The digest is computed from the sorted list of the assignment's VALUES only
— the coordinates never enter the hash. -/

def dLookup {α : Type} : List (Digest × α) → Digest → Option α
  | [], _ => none
  | (k', v) :: rest, k => if k' = k then some v else dLookup rest k

def dInsert {α : Type} : List (Digest × α) → Digest → α → List (Digest × α)
  | [], k, v => [(k, v)]
  | (k', v') :: rest, k, v =>
    if k' = k then (k', v) :: rest else (k', v') :: dInsert rest k v

/-- The digest of `str(sorted(solution.values()))`. -/
def mkDigest (sol : Store) : Digest :=
  ⟨(sol.map Prod.snd).insertionSort (· ≤ ·)⟩

/-- `Solver.add_solution(remaining=0)`: returns the `new_solution` flag and
the updated state. -/
def add_solution (remaining : Int) (s : SState) : Bool × SState :=
  let m := mkDigest s.solution
  if dLookup s.solutions m = none then
    (true,
      { s with
        partCounts :=
          if remaining > 0 then dInsert s.partCounts m remaining else s.partCounts,
        solutions := dInsert s.solutions m s.solution })
  else (false, s)

theorem dLookup_insert {α : Type} (l : List (Digest × α)) (k k' : Digest) (v : α) :
    dLookup (dInsert l k v) k' = if k = k' then some v else dLookup l k' := by
  induction l with
  | nil =>
    simp only [dInsert, dLookup]
  | cons hd tl ih =>
    obtain ⟨k₀, v₀⟩ := hd
    simp only [dInsert]
    by_cases h : k₀ = k
    · subst h
      rw [if_pos rfl]
      simp only [dLookup]
      by_cases h' : k₀ = k'
      · rw [if_pos h', if_pos h']
      · rw [if_neg h', if_neg h', if_neg h']
    · rw [if_neg h]
      simp only [dLookup, ih]
      by_cases h' : k₀ = k'
      · have hne : ¬ k = k' := fun e => h (e ▸ h')
        rw [if_pos h', if_neg hne, if_pos h']
      · rw [if_neg h', if_neg h']

/-- C6: `Solver.add_solution` keys a snapshot solely by the (md5 digest of
the) sorted list of the assignment's digit values, ignoring coordinates: on
a fresh digest it stores a copy of the current assignment and returns
`True`; any later call whose assignment has the same sorted value list —
even at entirely different coordinates (`s₂`) — computes the same key,
returns `False`, and leaves the Solution Record Set and partial map
unchanged. -/
theorem C6_add_solution_dedup (s : SState) (remaining r₂ : Int) (s₂ : Store)
    (hvals : (s₂.map Prod.snd).insertionSort (· ≤ ·) =
      ((s.solution.map Prod.snd).insertionSort (· ≤ ·)))
    (hnew : dLookup s.solutions (mkDigest s.solution) = none) :
    ((add_solution remaining s).1 = true ↔
        dLookup s.solutions (mkDigest s.solution) = none) ∧
      dLookup (add_solution remaining s).2.solutions (mkDigest s.solution) =
        some s.solution ∧
      (add_solution r₂ { (add_solution remaining s).2 with solution := s₂ }).1 = false ∧
      (add_solution r₂ { (add_solution remaining s).2 with solution := s₂ }).2 =
        { (add_solution remaining s).2 with solution := s₂ } := by
  have hdig : mkDigest s₂ = mkDigest s.solution := by
    simp only [mkDigest, hvals]
  have h1 : add_solution remaining s =
      (true,
        { s with
          partCounts :=
            if remaining > 0 then dInsert s.partCounts (mkDigest s.solution) remaining
            else s.partCounts,
          solutions := dInsert s.solutions (mkDigest s.solution) s.solution }) := by
    simp only [add_solution, hnew, if_pos]
  rw [h1]
  have hlook : dLookup (dInsert s.solutions (mkDigest s.solution) s.solution)
      (mkDigest s.solution) = some s.solution := by
    rw [dLookup_insert, if_pos rfl]
  refine ⟨by simp [hnew], hlook, ?_, ?_⟩
  · simp only [add_solution, hdig, hlook]
    rfl
  · simp only [add_solution, hdig, hlook]
    rfl

theorem C6_add_solution_dedup_witness :
    ((add_solution 0 ⟨[((0, 0), 1), ((1, 0), 2)], [], [], [], 0,
        fun _ _ => ∅, [], []⟩).1 = true ↔
      dLookup ([] : List (Digest × Store))
        (mkDigest [((0, 0), 1), ((1, 0), 2)]) = none) ∧
      dLookup (add_solution 0 ⟨[((0, 0), 1), ((1, 0), 2)], [], [], [], 0,
          fun _ _ => ∅, [], []⟩).2.solutions
        (mkDigest [((0, 0), 1), ((1, 0), 2)]) = some [((0, 0), 1), ((1, 0), 2)] ∧
      (add_solution 0 { (add_solution 0 ⟨[((0, 0), 1), ((1, 0), 2)], [], [], [], 0,
          fun _ _ => ∅, [], []⟩).2 with
        solution := [((5, 5), 2), ((7, 7), 1)] }).1 = false ∧
      (add_solution 0 { (add_solution 0 ⟨[((0, 0), 1), ((1, 0), 2)], [], [], [], 0,
          fun _ _ => ∅, [], []⟩).2 with
        solution := [((5, 5), 2), ((7, 7), 1)] }).2 =
        { (add_solution 0 ⟨[((0, 0), 1), ((1, 0), 2)], [], [], [], 0,
            fun _ _ => ∅, [], []⟩).2 with
          solution := [((5, 5), 2), ((7, 7), 1)] } :=
  C6_add_solution_dedup ⟨[((0, 0), 1), ((1, 0), 2)], [], [], [], 0, fun _ _ => ∅, [], []⟩
    0 0 [((5, 5), 2), ((7, 7), 1)] (by decide) (by decide)

/-! ## Runs, the Board, and `get_digits`

A `Run` object's immutable data.  `Run.__init__` sets
`self.sequences = get_unique_sums(total, length)` and
`self.coords = [(start0 + a*x, start1 + b*x) for x in range(length)]`;
`self.intersect` aliases `solver.horizontal_runs` when the run is vertical,
`solver.vertical_runs` otherwise.  Run objects are modelled by indices into
`Board.runs`; the coordinate→Run dicts map coordinates to such indices. -/

structure RunData where
  total : Nat
  length : Nat
  vert : Bool
  coords : List Coord
  sequences : List (List Nat)
deriving DecidableEq

structure Board where
  runs : List RunData
  hmap : Store
  vmap : Store
  uniqueH : List Nat
  uniqueV : List Nat
  width : Nat
  height : Nat
deriving DecidableEq

/-- `self.intersect`: the perpendicular coordinate→Run dictionary. -/
def RunData.intersectMap (r : RunData) (B : Board) : Store :=
  if r.vert then B.hmap else B.vmap

/-- `Run._get_found` (`src/main.py` lines 383–389): the digits already
assigned among this run's cells, in cell order. -/
def get_found (r : RunData) (sol : Store) : List Nat :=
  r.coords.filterMap (fun coord => storeLookup sol coord)

/-- `Run.get_digits` (`src/main.py` lines 366–381).  `required_digits`
starts from `set(self.sequences[0])` (`headD []` stands for the
`sequences[0]` access, which cannot fail because construction rejects runs
with no sequences); a sequence contributes when the found digits are a
subset of it (or none are found yet). -/
def get_digits (r : RunData) (sol : Store) : Finset Nat × Finset Nat :=
  let found_digits : Finset Nat := (get_found r sol).toFinset
  let res := r.sequences.foldl
    (fun (acc : Finset Nat × Finset Nat) sequence =>
      if found_digits ⊆ sequence.toFinset ∨ found_digits = ∅ then
        (acc.1 ∪ sequence.toFinset, acc.2 ∩ sequence.toFinset)
      else acc)
    ((∅ : Finset Nat), (r.sequences.headD []).toFinset)
  (res.1 \ found_digits, res.2 \ found_digits)

/-- `self.digit_coords = {x: set() for x in range(1, 10)}` for run `rid`. -/
def resetDcs (rid : Nat) (s : SState) : SState :=
  { s with dcs := fun i => if i = rid then (fun _ => ∅) else s.dcs i }

/-- `for digit in common: self.digit_coords[digit].add(coord)`. -/
def dcsAddAll (rid : Nat) (common : Finset Nat) (coord : Coord) (s : SState) : SState :=
  { s with dcs := fun i d => if i = rid ∧ d ∈ common then insert coord (s.dcs i d) else s.dcs i d }

/-- `set.pop()` on a set of digits — in the source this is only applied to
singleton sets (`len(common) == 1`), where it returns the unique element;
the model takes the minimum. -/
def setPop (s : Finset Nat) : Nat :=
  s.min.untop' 0

/-- `set.pop()` on a set of coordinates — likewise only applied to
singletons. -/
def coordPop (s : Finset Coord) : Coord :=
  ((s.image Prod.fst).min.untop' 0, (s.image Prod.snd).min.untop' 0)

/-- `Run._fill_unique(required_digits)` (`src/main.py` lines 429–438): walk
the per-digit candidate-cell index in key order 1..9; a digit with exactly
one candidate cell that is required is popped and, if the cell is still
unassigned, committed (with the default `testing=False`). -/
def fill_unique (rid : Nat) (required_digits : Finset Nat) (s : SState) : SState × Nat :=
  (List.range' 1 9).foldl
    (fun (acc : SState × Nat) digit =>
      let coords := acc.1.dcs rid digit
      if coords.card = 1 ∧ digit ∈ required_digits then
        let coord := coordPop coords
        let s₁ := { acc.1 with
          dcs := fun i d =>
            if i = rid ∧ d = digit then coords.erase coord else acc.1.dcs i d }
        if storeLookup s₁.solution coord = none then
          (add_found coord digit false s₁, acc.2 + 1)
        else (s₁, acc.2)
      else acc)
    (s, 0)

/-! ## `Run.fill_cells` (`src/main.py` lines 440–468)

    self.digit_coords = {x: set() for x in range(1, 10)}
    found = self._get_found()
    if len(found) != len(set(found)):
        return -1
    digits1, digits2 = self.get_digits()
    filled_count = 0
    for coord in self.coords:
        if coord not in self.solver.solution:
            digits3, digits4 = self.intersect[coord].get_digits()
            common = digits3 & digits1
            if len(common) == 1:
                found = common.pop()
                self.add_found(coord, found, test)
                if found in digits2:
                    digits2.remove(found)
                filled_count += 1
            elif len(common) == 0:
                return -1
            for digit in common:
                self.digit_coords[digit].add(coord)
            if test and filled_count != 0 and self.intersect[coord].fill_cells(test) == -1:
                return -1
    filled_count += self._fill_unique(digits2)
    return filled_count

The recursion is bounded in Python because a call recurses only after
filling at least one fresh cell; the model uses structural fuel, with the
per-cell body factored into `fillStep` and the `for` loop into `fillLoop`
(parameterised by the recursive call at the next-lower fuel). -/

inductive CellOutcome where
  | skip
  | keyErr
  | contra
  | step (s : SState) (digits2 : Finset Nat) (filled : Nat) (pid : Nat)

/-- One iteration of the `for coord in self.coords` loop, up to (not
including) the recursive propagation call.  `common.pop()` in the singleton
branch empties `common`, so the index loop `for digit in common` adds
nothing there; in the other surviving branch it adds `coord` under every
digit of `common`. -/
def fillStep (B : Board) (rid : Nat) (r : RunData) (test : Bool) (coord : Coord)
    (digits1 digits2 : Finset Nat) (filled : Nat) (s : SState) : CellOutcome :=
  if storeLookup s.solution coord = none then
    match storeLookup (r.intersectMap B) coord with
    | none => CellOutcome.keyErr
    | some pid =>
      match B.runs.get? pid with
      | none => CellOutcome.keyErr
      | some pr =>
        let common := (get_digits pr s.solution).1 ∩ digits1
        if common.card = 1 then
          let fnd := setPop common
          CellOutcome.step (add_found coord fnd test s)
            (if fnd ∈ digits2 then digits2.erase fnd else digits2)
            (filled + 1) pid
        else if common.card = 0 then CellOutcome.contra
        else CellOutcome.step (dcsAddAll rid common coord s) digits2 filled pid
  else CellOutcome.skip

/-- The `for coord in self.coords` loop of `fill_cells`.  `Sum.inr`
carries an early `return -1` (with the state at that point); `Sum.inl`
carries the state, the final `digits2` and `filled_count` after the loop. -/
def fillLoop (B : Board) (rid : Nat) (r : RunData) (test : Bool)
    (recFill : Nat → SState → Option (SState × Int)) :
    List Coord → Finset Nat → Finset Nat → Nat → SState →
    Option ((SState × Finset Nat × Nat) ⊕ (SState × Int))
  | [], _, digits2, filled, s => some (Sum.inl (s, digits2, filled))
  | coord :: rest, digits1, digits2, filled, s =>
    match fillStep B rid r test coord digits1 digits2 filled s with
    | CellOutcome.skip => fillLoop B rid r test recFill rest digits1 digits2 filled s
    | CellOutcome.keyErr => none
    | CellOutcome.contra => some (Sum.inr (s, -1))
    | CellOutcome.step s₁ digits2' filled' pid =>
      if test = true ∧ filled' ≠ 0 then
        match recFill pid s₁ with
        | none => none
        | some (s₂, rres) =>
          if rres = -1 then some (Sum.inr (s₂, -1))
          else fillLoop B rid r test recFill rest digits1 digits2' filled' s₂
      else fillLoop B rid r test recFill rest digits1 digits2' filled' s₁

/-- `Run.fill_cells(test)` for the run at index `rid`, with structural
fuel; `none` models fuel exhaustion (unreachable in Python, whose recursion
is bounded) or a KeyError on a malformed board. -/
def fillCells (B : Board) (rid : Nat) (test : Bool) : Nat → SState → Option (SState × Int)
  | 0, _ => none
  | fuel + 1, s =>
    match B.runs.get? rid with
    | none => none
    | some r =>
      let s₁ := resetDcs rid s
      let found := get_found r s₁.solution
      if found.length ≠ found.toFinset.card then some (s₁, -1)
      else
        let d12 := get_digits r s₁.solution
        match fillLoop B rid r test (fun pid s' => fillCells B pid test fuel s')
            r.coords d12.1 d12.2 0 s₁ with
        | none => none
        | some (Sum.inl (s₂, digits2', filled)) =>
          let fu := fill_unique rid digits2' s₂
          some (fu.1, (filled : Int) + (fu.2 : Int))
        | some (Sum.inr er) => some er

/-! ## C4: characterisation of the CONTRADICTION signal of `fill_cells` -/

/-- The operational reading of the loop-level CONTRADICTION sources of
`fill_cells`, mirroring the scan cell by cell: at an unfilled cell the
intersection of this run's `all_digits` with the perpendicular partner's
`all_digits` is empty (`CellOutcome.contra`), or — in speculative mode with
at least one fill so far — the recursively triggered perpendicular
propagation itself signals CONTRADICTION (`rres = -1`); a crash
(`none`/KeyError) is not a CONTRADICTION signal. -/
def loopContra (B : Board) (rid : Nat) (r : RunData) (test : Bool)
    (recFill : Nat → SState → Option (SState × Int)) :
    List Coord → Finset Nat → Finset Nat → Nat → SState → Prop
  | [], _, _, _, _ => False
  | coord :: rest, digits1, digits2, filled, s =>
    match fillStep B rid r test coord digits1 digits2 filled s with
    | CellOutcome.skip => loopContra B rid r test recFill rest digits1 digits2 filled s
    | CellOutcome.keyErr => False
    | CellOutcome.contra => True
    | CellOutcome.step s₁ digits2' filled' pid =>
      if test = true ∧ filled' ≠ 0 then
        match recFill pid s₁ with
        | none => False
        | some q =>
          if q.2 = -1 then True
          else loopContra B rid r test recFill rest digits1 digits2' filled' q.1
      else loopContra B rid r test recFill rest digits1 digits2' filled' s₁

/-- The full operational contradiction condition of `fill_cells`: the
digits already assigned among the run's own cells contain a duplicate, or
the scan raises a loop-level contradiction as in `loopContra`. -/
def FillContra (B : Board) (rid : Nat) (test : Bool) : Nat → SState → Prop
  | 0, _ => False
  | fuel + 1, s =>
    match B.runs.get? rid with
    | none => False
    | some r =>
      ¬ (get_found r s.solution).Nodup ∨
        ((get_found r s.solution).Nodup ∧
          loopContra B rid r test (fun pid s' => fillCells B pid test fuel s')
            r.coords (get_digits r s.solution).1 (get_digits r s.solution).2
            0 (resetDcs rid s))

theorem fillLoop_inr_neg (B : Board) (rid : Nat) (r : RunData) (test : Bool)
    (recFill : Nat → SState → Option (SState × Int)) :
    ∀ cs d1 d2 f s p, fillLoop B rid r test recFill cs d1 d2 f s = some (Sum.inr p) →
      p.2 = -1 := by
  intro cs
  induction cs with
  | nil =>
    intro d1 d2 f s p h
    simp only [fillLoop, Option.some.injEq] at h
    cases h
  | cons coord rest ih =>
    intro d1 d2 f s p h
    simp only [fillLoop] at h
    split at h
    · exact ih _ _ _ _ _ h
    · cases h
    · simp only [Option.some.injEq, Sum.inr.injEq] at h
      rw [← h]
    · split at h
      · split at h
        · cases h
        · split at h
          · simp only [Option.some.injEq, Sum.inr.injEq] at h
            rw [← h]
          · exact ih _ _ _ _ _ h
      · exact ih _ _ _ _ _ h

theorem fillLoop_contra_iff (B : Board) (rid : Nat) (r : RunData) (test : Bool)
    (recFill : Nat → SState → Option (SState × Int)) :
    ∀ cs d1 d2 f s out, fillLoop B rid r test recFill cs d1 d2 f s = some out →
      ((∃ p, out = Sum.inr p) ↔ loopContra B rid r test recFill cs d1 d2 f s) := by
  intro cs
  induction cs with
  | nil =>
    intro d1 d2 f s out h
    simp only [fillLoop, Option.some.injEq] at h
    subst h
    simp only [loopContra]
    constructor
    · intro ⟨p, hp⟩
      cases hp
    · intro hf
      cases hf
  | cons coord rest ih =>
    intro d1 d2 f s out h
    simp only [fillLoop] at h
    simp only [loopContra]
    split at h
    · exact ih _ _ _ _ _ h
    · cases h
    · simp only [Option.some.injEq] at h
      subst h
      simp
    · rename_i s₁ d2' f' pid heq
      split at h
      · rename_i hc
        rw [if_pos hc]
        split at h
        · rename_i hrec
          cases h
        · rename_i s₂ rr hrec
          simp only [hrec]
          split at h
          · rename_i hrr
            simp only [Option.some.injEq] at h
            subst h
            simp [hrr]
          · rename_i hrr
            simp only [hrr, if_false]
            exact ih _ _ _ _ _ h
      · rename_i hc
        rw [if_neg hc]
        exact ih _ _ _ _ _ h

theorem length_ne_toFinset_card_iff (l : List Nat) :
    l.length ≠ l.toFinset.card ↔ ¬ l.Nodup := by
  constructor
  · intro h hn
    exact h (by rw [List.toFinset_card_of_nodup hn])
  · intro h hl
    apply h
    have hd : l.dedup = l := (l.dedup_sublist).eq_of_length (by rw [← List.card_toFinset, hl])
    rw [← hd]
    exact l.nodup_dedup

/-- C4: `Run.fill_cells` signals CONTRADICTION (returns `-1`) if and only
if either the digits already assigned among the Run's own cells contain a
duplicate, or — scanning the cells as the code does — some unfilled cell
has an empty intersection of this Run's `all_digits` with the perpendicular
partner Run's `all_digits`, or (in speculative mode, after at least one
fill) a recursively triggered perpendicular propagation itself signals
CONTRADICTION (`FillContra` is exactly this disjunction); in every other
case the result is the non-negative count of cells this call filled (the
loop fills plus the hidden-single fills, both natural numbers). -/
theorem C4_fill_cells_contra_iff (B : Board) (rid : Nat) (test : Bool) (fuel : Nat)
    (s s' : SState) (res : Int)
    (h : fillCells B rid test fuel s = some (s', res)) :
    (res = -1 ↔ FillContra B rid test fuel s) ∧ (res ≠ -1 → 0 ≤ res) := by
  match fuel with
  | 0 => cases h
  | fuel + 1 =>
    simp only [fillCells] at h
    simp only [FillContra]
    split at h
    · cases h
    · rename_i r hr
      split at h
      · rename_i hdup
        simp only [Option.some.injEq, Prod.mk.injEq] at h
        obtain ⟨hs', hres⟩ := h
        constructor
        · constructor
          · intro _
            exact Or.inl ((length_ne_toFinset_card_iff _).mp hdup)
          · intro _
            omega
        · intro hne
          omega
      · rename_i hdup
        have hnodup : (get_found r (resetDcs rid s).solution).Nodup := by
          by_contra hn
          exact hdup ((length_ne_toFinset_card_iff _).mpr hn)
        split at h
        · cases h
        · rename_i s₂ d2' filled hloop
          simp only [Option.some.injEq, Prod.mk.injEq] at h
          obtain ⟨hs', hres⟩ := h
          have hiff := fillLoop_contra_iff B rid r test _ _ _ _ _ _ _ hloop
          constructor
          · constructor
            · intro he
              omega
            · intro hcontra
              rcases hcontra with hdup' | hlc
              · exact absurd hnodup hdup'
              · obtain ⟨p, hp⟩ := hiff.mpr hlc.2
                cases hp
          · intro _
            omega
        · rename_i er hloop
          simp only [Option.some.injEq] at h
          subst h
          have hneg := fillLoop_inr_neg B rid r test _ _ _ _ _ _ _ hloop
          have hiff := fillLoop_contra_iff B rid r test _ _ _ _ _ _ _ hloop
          constructor
          · constructor
            · intro _
              exact Or.inr ⟨hnodup, hiff.mp ⟨_, rfl⟩⟩
            · intro _
              exact hneg
          · intro hne
            exact absurd hneg hne

/-- A concrete 2-cell board: one horizontal run (total 4) whose cells are
crossed by two vertical runs (totals 3 and 7). -/
def C4B : Board :=
  { runs :=
      [ { total := 4, length := 2, vert := false, coords := [(1, 1), (2, 1)],
          sequences := get_unique_sums 4 2 },
        { total := 3, length := 2, vert := true, coords := [(1, 1), (1, 2)],
          sequences := get_unique_sums 3 2 },
        { total := 7, length := 2, vert := true, coords := [(2, 1), (2, 2)],
          sequences := get_unique_sums 7 2 } ],
    hmap := [((1, 1), 0), ((2, 1), 0)],
    vmap := [((1, 1), 1), ((1, 2), 1), ((2, 1), 2), ((2, 2), 2)],
    uniqueH := [0], uniqueV := [1, 2], width := 3, height := 3 }

def C4s0 : SState :=
  ⟨[], [], [], [], 0, fun _ _ => ∅, [], []⟩

theorem C4_fill_cells_contra_iff_witness :
    ∃ p, fillCells C4B 0 false 1 C4s0 = some p ∧
      (p.2 = -1 ↔ FillContra C4B 0 false 1 C4s0) ∧ (p.2 ≠ -1 → 0 ≤ p.2) := by
  have hs : (fillCells C4B 0 false 1 C4s0).isSome = true := by decide
  have hp : fillCells C4B 0 false 1 C4s0 =
      some ((fillCells C4B 0 false 1 C4s0).get hs) := (Option.some_get hs).symm
  exact ⟨_, hp, C4_fill_cells_contra_iff C4B 0 false 1 C4s0 _ _ hp⟩

/-! ## Construction: `Solver.__init__`, `parse_sequence`, `add_run`
(`src/main.py` lines 203–276)

Puzzle text is modelled after `line.strip().split(',')` and
`cell.isdigit()`: each line is a list of cells, a cell being either a
numeric string (with its integer value) or anything else (e.g. the `XX`
blocking marker); an empty list stands for the blank separator line.
Construction can raise (a) `Exception('Error in puzzle at: ...')` when a
declared run has zero length (`add_run`), (b) `Exception('Error at ..., no
digit sequences found')` when `get_unique_sums(total, length)` is empty
(`Run.__init__`), or (c) an `IndexError` when a line of the vertical block
is longer than the first one (`columns[idx].append(cell)`). -/

inductive PCell where
  | num (n : Nat)
  | other
deriving DecidableEq

inductive BuildErr where
  | zeroLen (start : Coord)
  | noSeq (start : Coord)
  | ragged
deriving DecidableEq

instance exceptDecEq {e a : Type} [DecidableEq e] [DecidableEq a] :
    DecidableEq (Except e a)
  | Except.error x, Except.error y =>
    if h : x = y then isTrue (by rw [h]) else isFalse (by intro hq; cases hq; exact h rfl)
  | Except.error _, Except.ok _ => isFalse (by intro hq; cases hq)
  | Except.ok _, Except.error _ => isFalse (by intro hq; cases hq)
  | Except.ok x, Except.ok y =>
    if h : x = y then isTrue (by rw [h]) else isFalse (by intro hq; cases hq; exact h rfl)

/-- The Solver's mutable attributes during construction, plus the
class-level `Run.min_remaining` (written by every `Run.__init__`). -/
structure BuildSt where
  runs : List RunData
  hmap : Store
  vmap : Store
  uniqueH : List Nat
  uniqueV : List Nat
  width : Nat
  min_remaining : Int
deriving DecidableEq

/-- `Solver.add_run` (lines 245–259) together with the `Run.__init__` it
invokes: reject zero length; `Run.__init__` sets
`min_remaining = len(horizontal_runs)`, computes the sequences (rejecting
an empty set) and the coordinates; then the run is appended to the
orientation's unique list and each coordinate is mapped to it. -/
def add_run (start : Coord) (length total : Nat) (vert : Bool) (st : BuildSt) :
    Except BuildErr BuildSt :=
  if length = 0 then Except.error (BuildErr.zeroLen start)
  else
    let mr : Int := st.hmap.length
    let sequences := get_unique_sums total length
    if sequences.length = 0 then Except.error (BuildErr.noSeq start)
    else
      let ab : Nat × Nat := if vert then (0, 1) else (1, 0)
      let coords := (List.range length).map
        (fun x => (start.1 + ab.1 * x, start.2 + ab.2 * x))
      let run : RunData := ⟨total, length, vert, coords, sequences⟩
      let idx := st.runs.length
      Except.ok
        { st with
          runs := st.runs ++ [run],
          min_remaining := mr,
          uniqueH := if vert then st.uniqueH else st.uniqueH ++ [idx],
          uniqueV := if vert then st.uniqueV ++ [idx] else st.uniqueV,
          hmap := if vert then st.hmap
            else coords.foldl (fun m c => storeInsert m c idx) st.hmap,
          vmap := if vert then coords.foldl (fun m c => storeInsert m c idx) st.vmap
            else st.vmap }

/-- The cell scan of `Solver.parse_sequence` (lines 261–276), over
`enumerate(cells)` with the running `(total, start, length)`. -/
def parseSeqAux (idx : Nat) (vert : Bool) :
    List (Nat × PCell) → Nat → Coord → Nat → BuildSt → Except BuildErr BuildSt
  | [], total, start, length, st =>
    if total ≠ 0 then add_run start length total vert st else Except.ok st
  | (pitch, cell) :: rest, total, start, length, st =>
    match cell with
    | PCell.num n =>
      if n > 0 then
        match (if total ≠ 0 then add_run start length total vert st else Except.ok st) with
        | Except.error e => Except.error e
        | Except.ok st' =>
          parseSeqAux idx vert rest n
            (if vert then (idx, pitch + 1) else (pitch + 1, idx)) 0 st'
      else parseSeqAux idx vert rest total start (length + 1) st
    | PCell.other => parseSeqAux idx vert rest total start length st

def parse_sequence (idx : Nat) (cells : List PCell) (vert : Bool) (st : BuildSt) :
    Except BuildErr BuildSt :=
  parseSeqAux idx vert cells.enum 0 (0, 0) 0 st

/-- `for idx, cell in enumerate(cells): columns[idx].append(cell)` —
`IndexError` (ragged) when the line has more cells than there are columns. -/
def appendColumns (columns : List (List PCell)) (cells : List PCell) :
    Except BuildErr (List (List PCell)) :=
  if columns.length < cells.length then Except.error BuildErr.ragged
  else Except.ok (columns.enum.map (fun p =>
    match cells.get? p.1 with
    | some c => p.2 ++ [c]
    | none => p.2))

/-- The line loop of `Solver.__init__` (lines 224–238): before the blank
separator, lines are parsed as horizontal clue rows; after it, lines are
collected column-wise. -/
def buildLinesAux :
    List (List PCell) → Nat → Bool → List (List PCell) → BuildSt →
      Except BuildErr (Bool × List (List PCell) × BuildSt)
  | [], _, vert, columns, st => Except.ok (vert, columns, st)
  | line :: rest, lineNo, vert, columns, st =>
    if line = [] then buildLinesAux rest (lineNo + 1) true columns st
    else
      let st₁ := { st with width := line.length }
      if vert then
        let cols0 := if columns = [] then line.map (fun _ => ([] : List PCell)) else columns
        match appendColumns cols0 line with
        | Except.error e => Except.error e
        | Except.ok cols1 => buildLinesAux rest (lineNo + 1) vert cols1 st₁
      else
        match parse_sequence lineNo line false st₁ with
        | Except.error e => Except.error e
        | Except.ok st₂ => buildLinesAux rest (lineNo + 1) vert columns st₂

/-- `for idx, column in enumerate(columns): parse_sequence(idx, column,
vertical_runs, vert)` (lines 240–243). -/
def parseColumns : List (List PCell) → Nat → BuildSt → Except BuildErr BuildSt
  | [], _, st => Except.ok st
  | col :: rest, idx, st =>
    match parse_sequence idx col true st with
    | Except.error e => Except.error e
    | Except.ok st' => parseColumns rest (idx + 1) st'

/-- `Solver.__init__` on parsed puzzle text (`src/main.py` lines 203–243),
with `mr0` the incoming class-level `Run.min_remaining`.  Returns the
constructed board and the final `min_remaining`. -/
def buildSolver (lines : List (List PCell)) (mr0 : Int) :
    Except BuildErr (Board × Int) :=
  match buildLinesAux lines 0 false [] ⟨[], [], [], [], [], 0, mr0⟩ with
  | Except.error e => Except.error e
  | Except.ok (_, columns, st) =>
    if columns ≠ [] then
      let height := (columns.headD []).length
      match parseColumns columns 0 st with
      | Except.error e => Except.error e
      | Except.ok st' =>
        Except.ok (⟨st'.runs, st'.hmap, st'.vmap, st'.uniqueH, st'.uniqueV,
          st'.width, height⟩, st'.min_remaining)
    else
      Except.ok (⟨st.runs, st.hmap, st.vmap, st.uniqueH, st.uniqueV,
        st.width, 0⟩, st.min_remaining)

/-! ## C5: construction errors versus declared runs -/

/-- Spec-side reading of one clue row/column (spec §6): a positive integer
declares a run starting at the next cell; each zero cell extends the open
run; the scan yields every declared `(start, total, length)` triple. -/
def declaredRunsSeq (idx : Nat) (vert : Bool) :
    List (Nat × PCell) → Nat → Coord → Nat → List (Coord × Nat × Nat)
  | [], total, start, length =>
    if total ≠ 0 then [(start, total, length)] else []
  | (pitch, cell) :: rest, total, start, length =>
    match cell with
    | PCell.num n =>
      if n > 0 then
        (if total ≠ 0 then [(start, total, length)] else []) ++
          declaredRunsSeq idx vert rest n
            (if vert then (idx, pitch + 1) else (pitch + 1, idx)) 0
      else declaredRunsSeq idx vert rest total start (length + 1)
    | PCell.other => declaredRunsSeq idx vert rest total start length

/-- The horizontal clue rows (with their line numbers): the non-blank lines
before the first blank separator. -/
def hClueLines : List (List PCell) → Nat → Bool → List (Nat × List PCell)
  | [], _, _ => []
  | line :: rest, lineNo, vert =>
    if line = [] then hClueLines rest (lineNo + 1) true
    else if vert then hClueLines rest (lineNo + 1) vert
    else (lineNo, line) :: hClueLines rest (lineNo + 1) vert

/-- The columns of the vertical block (the grid after the separator read
column by column); `none` when a line is longer than the first one. -/
def columnsOf : List (List PCell) → Bool → List (List PCell) →
    Option (List (List PCell))
  | [], _, columns => some columns
  | line :: rest, vert, columns =>
    if line = [] then columnsOf rest true columns
    else if vert then
      let cols0 := if columns = [] then line.map (fun _ => ([] : List PCell)) else columns
      match appendColumns cols0 line with
      | Except.error _ => none
      | Except.ok cols1 => columnsOf rest vert cols1
    else columnsOf rest vert columns

/-- All declared runs of the puzzle text: the horizontal ones row by row,
then the vertical ones column by column. -/
def declaredRuns (lines : List (List PCell)) : List (Coord × Nat × Nat) :=
  ((hClueLines lines 0 false).flatMap
      (fun p => declaredRunsSeq p.1 false p.2.enum 0 (0, 0) 0)) ++
    (match columnsOf lines false [] with
     | none => []
     | some cols =>
       cols.enum.flatMap (fun p => declaredRunsSeq p.1 true p.2.enum 0 (0, 0) 0))

theorem add_run_ok_iff (start : Coord) (length total : Nat) (vert : Bool) (st : BuildSt) :
    (∃ st', add_run start length total vert st = Except.ok st') ↔
      (length ≠ 0 ∧ get_unique_sums total length ≠ []) := by
  unfold add_run
  by_cases hl : length = 0
  · simp only [hl, if_true]
    constructor
    · intro ⟨st', h⟩
      cases h
    · intro ⟨h, _⟩
      exact absurd rfl h
  · rw [if_neg hl]
    by_cases hs : (get_unique_sums total length).length = 0
    · rw [if_pos hs]
      constructor
      · intro ⟨st', h⟩
        cases h
      · intro ⟨_, h⟩
        exact absurd (List.length_eq_zero.mp hs) h
    · rw [if_neg hs]
      constructor
      · intro _
        exact ⟨hl, fun h => hs (by rw [h]; rfl)⟩
      · intro _
        exact ⟨_, rfl⟩

theorem parseSeqAux_ok_iff (idx : Nat) (vert : Bool) :
    ∀ (cells : List (Nat × PCell)) (total : Nat) (start : Coord) (length : Nat)
      (st : BuildSt),
      (∃ st', parseSeqAux idx vert cells total start length st = Except.ok st') ↔
        ∀ rd ∈ declaredRunsSeq idx vert cells total start length,
          rd.2.2 ≠ 0 ∧ get_unique_sums rd.2.1 rd.2.2 ≠ [] := by
  intro cells
  induction cells with
  | nil =>
    intro total start length st
    simp only [parseSeqAux, declaredRunsSeq]
    by_cases ht : total ≠ 0
    · rw [if_pos ht, if_pos ht]
      rw [add_run_ok_iff]
      simp
    · rw [if_neg ht, if_neg ht]
      simp
  | cons hd rest ih =>
    intro total start length st
    obtain ⟨pitch, cell⟩ := hd
    cases cell with
    | other =>
      simp only [parseSeqAux, declaredRunsSeq]
      exact ih total start length st
    | num n =>
      simp only [parseSeqAux, declaredRunsSeq]
      by_cases hn : n > 0
      · rw [if_pos hn, if_pos hn]
        by_cases ht : total ≠ 0
        · rw [if_pos ht, if_pos ht]
          cases har : add_run start length total vert st with
          | error e =>
            simp only [har]
            constructor
            · intro ⟨st', h⟩
              cases h
            · intro hall
              have hhead := hall (start, total, length)
                (List.mem_append.mpr (Or.inl (List.mem_singleton.mpr rfl)))
              obtain ⟨st', h⟩ := (add_run_ok_iff start length total vert st).mpr hhead
              rw [har] at h
              cases h
          | ok st1 =>
            simp only [har]
            have hhead := (add_run_ok_iff start length total vert st).mp ⟨st1, har⟩
            rw [ih n (if vert then (idx, pitch + 1) else (pitch + 1, idx)) 0 st1]
            constructor
            · intro hrest rd hrd
              rcases List.mem_append.mp hrd with h1 | h2
              · rw [List.mem_singleton] at h1
                subst h1
                exact hhead
              · exact hrest rd h2
            · intro hall rd hrd
              exact hall rd (List.mem_append.mpr (Or.inr hrd))
        · simp only [ht, if_false, List.nil_append]
          exact ih n (if vert then (idx, pitch + 1) else (pitch + 1, idx)) 0 st
      · rw [if_neg hn, if_neg hn]
        exact ih total start (length + 1) st

theorem appendColumns_error (columns : List (List PCell)) (cells : List PCell) (e : BuildErr)
    (h : appendColumns columns cells = Except.error e) : e = BuildErr.ragged := by
  unfold appendColumns at h
  by_cases hl : columns.length < cells.length
  · rw [if_pos hl] at h
    cases h
    rfl
  · rw [if_neg hl] at h
    cases h

theorem buildLinesAux_ok_spec :
    ∀ (lines : List (List PCell)) (lineNo : Nat) (vert : Bool)
      (columns : List (List PCell)) (st : BuildSt) (out : Bool × List (List PCell) × BuildSt),
      buildLinesAux lines lineNo vert columns st = Except.ok out →
        (∀ rd ∈ (hClueLines lines lineNo vert).flatMap
            (fun p => declaredRunsSeq p.1 false p.2.enum 0 (0, 0) 0),
          rd.2.2 ≠ 0 ∧ get_unique_sums rd.2.1 rd.2.2 ≠ []) ∧
        columnsOf lines vert columns = some out.2.1 := by
  intro lines
  induction lines with
  | nil =>
    intro lineNo vert columns st out h
    simp only [buildLinesAux, Except.ok.injEq] at h
    subst h
    constructor
    · intro rd hrd
      simp [hClueLines] at hrd
    · rfl
  | cons line rest ih =>
    intro lineNo vert columns st out h
    simp only [buildLinesAux] at h
    simp only [hClueLines, columnsOf]
    by_cases hline : line = []
    · rw [if_pos hline] at h ⊢
      rw [if_pos hline]
      exact ih (lineNo + 1) true columns st out h
    · rw [if_neg hline] at h ⊢
      rw [if_neg hline]
      by_cases hv : vert
      · rw [if_pos hv] at h ⊢
        rw [if_pos hv]
        cases hac : appendColumns
            (if columns = [] then line.map (fun _ => ([] : List PCell)) else columns) line with
        | error e =>
          rw [hac] at h
          cases h
        | ok cols1 =>
          rw [hac] at h
          simp only [hac]
          exact ih (lineNo + 1) vert cols1 _ out h
      · rw [if_neg hv] at h ⊢
        rw [if_neg hv]
        cases hps : parse_sequence lineNo line false { st with width := line.length } with
        | error e =>
          rw [hps] at h
          cases h
        | ok st₂ =>
          rw [hps] at h
          obtain ⟨hdecls, hcols⟩ := ih (lineNo + 1) vert columns st₂ out h
          refine ⟨?_, hcols⟩
          intro rd hrd
          simp only [List.flatMap_cons, List.mem_append] at hrd
          rcases hrd with h1 | h2
          · exact (parseSeqAux_ok_iff lineNo false line.enum 0 (0, 0) 0
              { st with width := line.length }).mp ⟨st₂, hps⟩ rd h1
          · exact hdecls rd h2

theorem buildLinesAux_good :
    ∀ (lines : List (List PCell)) (lineNo : Nat) (vert : Bool)
      (columns : List (List PCell)) (st : BuildSt),
      (∀ rd ∈ (hClueLines lines lineNo vert).flatMap
          (fun p => declaredRunsSeq p.1 false p.2.enum 0 (0, 0) 0),
        rd.2.2 ≠ 0 ∧ get_unique_sums rd.2.1 rd.2.2 ≠ []) →
      (columnsOf lines vert columns = none →
        buildLinesAux lines lineNo vert columns st = Except.error BuildErr.ragged) ∧
      (∀ cols, columnsOf lines vert columns = some cols →
        ∃ v' st', buildLinesAux lines lineNo vert columns st = Except.ok (v', cols, st')) := by
  intro lines
  induction lines with
  | nil =>
    intro lineNo vert columns st _
    constructor
    · intro h
      cases h
    · intro cols h
      simp only [columnsOf, Option.some.injEq] at h
      subst h
      exact ⟨vert, st, rfl⟩
  | cons line rest ih =>
    intro lineNo vert columns st hall
    simp only [buildLinesAux, columnsOf]
    simp only [hClueLines] at hall
    by_cases hline : line = []
    · simp only [if_pos hline]
      rw [if_pos hline] at hall
      exact ih (lineNo + 1) true columns st hall
    · simp only [if_neg hline]
      rw [if_neg hline] at hall
      by_cases hv : vert = true
      · simp only [if_pos hv]
        rw [if_pos hv] at hall
        cases hac : appendColumns
            (if columns = [] then line.map (fun _ => ([] : List PCell)) else columns) line with
        | error e =>
          simp only [hac]
          have he := appendColumns_error _ _ _ hac
          subst he
          exact ⟨fun _ => rfl, fun cols h => nomatch h⟩
        | ok cols1 =>
          simp only [hac]
          exact ih (lineNo + 1) vert cols1 { st with width := line.length } hall
      · simp only [if_neg hv]
        rw [if_neg hv] at hall
        simp only [List.flatMap_cons] at hall
        have hseq : ∃ st₂, parse_sequence lineNo line false { st with width := line.length } =
            Except.ok st₂ :=
          (parseSeqAux_ok_iff lineNo false line.enum 0 (0, 0) 0 _).mpr
            (fun rd hrd => hall rd (List.mem_append.mpr (Or.inl hrd)))
        obtain ⟨st₂, hps⟩ := hseq
        simp only [hps]
        exact ih (lineNo + 1) vert columns st₂
          (fun rd hrd => hall rd (List.mem_append.mpr (Or.inr hrd)))

theorem parseColumns_ok_iff :
    ∀ (cols : List (List PCell)) (idx : Nat) (st : BuildSt),
      (∃ st', parseColumns cols idx st = Except.ok st') ↔
        ∀ rd ∈ (cols.enumFrom idx).flatMap
            (fun p => declaredRunsSeq p.1 true p.2.enum 0 (0, 0) 0),
          rd.2.2 ≠ 0 ∧ get_unique_sums rd.2.1 rd.2.2 ≠ [] := by
  intro cols
  induction cols with
  | nil =>
    intro idx st
    simp only [parseColumns, List.enumFrom, List.flatMap_nil]
    constructor
    · intro _ rd hrd
      cases hrd
    · intro _
      exact ⟨st, rfl⟩
  | cons col rest ih =>
    intro idx st
    simp only [parseColumns, List.enumFrom, List.flatMap_cons]
    cases hps : parse_sequence idx col true st with
    | error e =>
      constructor
      · intro ⟨st', h⟩
        cases h
      · intro hall
        obtain ⟨st₂, h⟩ := (parseSeqAux_ok_iff idx true col.enum 0 (0, 0) 0 st).mpr
          (fun rd hrd => hall rd (List.mem_append.mpr (Or.inl hrd)))
        rw [show parse_sequence idx col true st = parseSeqAux idx true col.enum 0 (0, 0) 0 st
          from rfl] at hps
        rw [hps] at h
        cases h
    | ok st₂ =>
      rw [ih (idx + 1) st₂]
      have hhead := (parseSeqAux_ok_iff idx true col.enum 0 (0, 0) 0 st).mp ⟨st₂, hps⟩
      constructor
      · intro hrest rd hrd
        rcases List.mem_append.mp hrd with h1 | h2
        · exact hhead rd h1
        · exact hrest rd h2
      · intro hall rd hrd
        exact hall rd (List.mem_append.mpr (Or.inr hrd))

/-- C5: Solver construction (which happens before any propagation step —
`solve` is a separate call on the constructed board) raises a
MalformedPuzzle error exactly when some declared run has zero length or a
declared run's `(target, length)` pair admits no valid digit combination;
on every input without such a run (and whose vertical block is not ragged)
construction succeeds without an exception.  The `hnr` hypothesis excludes
the `IndexError` of a ragged vertical block, which is a crash of the
line-reading loop, not a MalformedPuzzle error. -/
theorem C5_construction_malformed_iff (lines : List (List PCell)) (mr0 : Int)
    (hnr : buildSolver lines mr0 ≠ Except.error BuildErr.ragged) :
    (∃ e, buildSolver lines mr0 = Except.error e) ↔
      ∃ rd ∈ declaredRuns lines, rd.2.2 = 0 ∨ get_unique_sums rd.2.1 rd.2.2 = [] := by
  constructor
  · intro ⟨e, he⟩
    by_contra hno
    push_neg at hno
    have hh : ∀ rd ∈ (hClueLines lines 0 false).flatMap
        (fun p => declaredRunsSeq p.1 false p.2.enum 0 (0, 0) 0),
        rd.2.2 ≠ 0 ∧ get_unique_sums rd.2.1 rd.2.2 ≠ [] := by
      intro rd hrd
      have := hno rd (by
        unfold declaredRuns
        exact List.mem_append.mpr (Or.inl hrd))
      tauto
    have hBL := buildLinesAux_good lines 0 false [] ⟨[], [], [], [], [], 0, mr0⟩ hh
    cases hco : columnsOf lines false [] with
    | none =>
      apply hnr
      unfold buildSolver
      rw [hBL.1 hco]
    | some cols =>
      obtain ⟨v', st', hok⟩ := hBL.2 cols hco
      have hv : ∀ rd ∈ (cols.enumFrom 0).flatMap
          (fun p => declaredRunsSeq p.1 true p.2.enum 0 (0, 0) 0),
          rd.2.2 ≠ 0 ∧ get_unique_sums rd.2.1 rd.2.2 ≠ [] := by
        intro rd hrd
        have := hno rd (by
          unfold declaredRuns
          rw [hco]
          exact List.mem_append.mpr (Or.inr hrd))
        tauto
      unfold buildSolver at he
      simp only [hok] at he
      by_cases hcols : cols ≠ []
      · rw [if_pos hcols] at he
        obtain ⟨st'', hpc⟩ := (parseColumns_ok_iff cols 0 st').mpr hv
        simp only [hpc] at he
        cases he
      · rw [if_neg hcols] at he
        cases he
  · intro ⟨rd, hmem, hbad⟩
    cases hres : buildSolver lines mr0 with
    | error e => exact ⟨e, rfl⟩
    | ok out =>
      exfalso
      unfold buildSolver at hres
      cases hbl : buildLinesAux lines 0 false [] ⟨[], [], [], [], [], 0, mr0⟩ with
      | error e =>
        rw [hbl] at hres
        cases hres
      | ok trip =>
        obtain ⟨v', cols, st'⟩ := trip
        obtain ⟨hh, hco⟩ := buildLinesAux_ok_spec lines 0 false [] _ _ hbl
        simp only [hbl] at hres
        unfold declaredRuns at hmem
        rw [hco] at hmem
        by_cases hcols : cols ≠ []
        · rw [if_pos hcols] at hres
          cases hpc : parseColumns cols 0 st' with
          | error e =>
            rw [hpc] at hres
            cases hres
          | ok st'' =>
            have hvdecls := (parseColumns_ok_iff cols 0 st').mp ⟨st'', hpc⟩
            rcases List.mem_append.mp hmem with h1 | h2
            · have hok := hh rd h1
              rcases hbad with hb | hb
              · exact hok.1 hb
              · exact hok.2 hb
            · have hok := hvdecls rd h2
              rcases hbad with hb | hb
              · exact hok.1 hb
              · exact hok.2 hb
        · push_neg at hcols
          subst hcols
          rcases List.mem_append.mp hmem with h1 | h2
          · have hok := hh rd h1
            rcases hbad with hb | hb
            · exact hok.1 hb
            · exact hok.2 hb
          · simp [List.enumFrom] at h2

theorem C5_construction_malformed_iff_witness :
    (buildSolver [[PCell.num 5, PCell.num 3]] 0 ≠ Except.error BuildErr.ragged) ∧
      ((∃ e, buildSolver [[PCell.num 5, PCell.num 3]] 0 = Except.error e) ↔
        ∃ rd ∈ declaredRuns [[PCell.num 5, PCell.num 3]],
          rd.2.2 = 0 ∨ get_unique_sums rd.2.1 rd.2.2 = []) :=
  ⟨by decide, C5_construction_malformed_iff [[PCell.num 5, PCell.num 3]] 0 (by decide)⟩

/-! ## C8: the minimal 1-row, 2-column crossing-clues scenario -/

/-- The minimal 1-row, 2-column puzzle of Scenario C: one horizontal run
`(total=3, length=2)`, and one single-cell vertical clue above each of its
two cells. -/
def C8lines : List (List PCell) :=
  [ [PCell.other, PCell.other, PCell.other],
    [PCell.num 3, PCell.num 0, PCell.num 0],
    [],
    [PCell.other, PCell.num 1, PCell.num 2],
    [PCell.other, PCell.num 0, PCell.num 0] ]

/-- C8 counterexample: the Scenario-C puzzle does NOT construct a solver at
all — `Solver.__init__` raises the `no digit sequences found`
MalformedPuzzle error at the first single-cell vertical clue (start
`(1, 1)`), so no Propagating round ever runs and the claimed error-free
convergence is impossible. -/
theorem C8_scenarioC_counterexample :
    buildSolver C8lines 0 = Except.error (BuildErr.noSeq (1, 1)) := by
  decide

/-- C8 amended: for the minimal 1-row, 2-column puzzle with one horizontal
run `(total=3, length=2)` crossing two single-cell vertical clues, Solver
construction raises the no-valid-combination MalformedPuzzle error at the
first single-cell vertical clue, before any Propagating round: a length-1
run never has stored combinations, because `get_unique_sums(total, 1)` is
empty for every total. -/
theorem C8_scenarioC_amended :
    buildSolver C8lines 0 = Except.error (BuildErr.noSeq (1, 1)) ∧
      ∀ total, get_unique_sums total 1 = [] := by
  constructor
  · decide
  · intro total
    unfold get_unique_sums
    rw [show get_sums total 1 = gsF total total 1 from rfl,
      gsF_low total total 1 (by omega)]
    rfl

/-! ## Enumeration: `Run._test` and `Run.test_possibilities`
(`src/main.py` lines 410–427 and 470–501) -/

/-- The commit walk shared by `_test`'s candidate loop and its final
`len(valid) == 1` commit: for each of the run's cells not yet assigned,
record it in `test_coords` and `add_found(coord, values[idx])` (with the
default `testing=False`), incrementing `idx`.  `none` models the
`IndexError` of `values[idx]`. -/
def testCommit (values : List Nat) :
    List Coord → Nat → List Coord → SState → Option (List Coord × SState)
  | [], _, testCoords, s => some (testCoords, s)
  | coord :: rest, idx, testCoords, s =>
    if storeLookup s.solution coord = none then
      match values.get? idx with
      | none => none
      | some v =>
        testCommit values rest (idx + 1) (testCoords ++ [coord]) (add_found coord v false s)
    else testCommit values rest idx testCoords s

/-- `for test_coord in test_coords: if intersect[test_coord].fill_cells(True)
== -1: eliminated = True; break`. -/
def testCheck (B : Board) (r : RunData) (fuel : Nat) :
    List Coord → SState → Option (Bool × SState)
  | [], s => some (false, s)
  | tc :: rest, s =>
    match storeLookup (r.intersectMap B) tc with
    | none => none
    | some pid =>
      match fillCells B pid true fuel s with
      | none => none
      | some (s', res) =>
        if res = -1 then some (true, s')
        else testCheck B r fuel rest s'

/-- The solution-recording block of `_test`: a full assignment registers a
Solution Record and zeroes `min_remaining`; otherwise, when the number of
unassigned cells is within the best seen so far, `min_remaining` is lowered
first and a partial record is registered with it. -/
def recordSolutions (B : Board) (r : RunData) (s : SState) : SState :=
  if (r.intersectMap B).length = s.solution.length then
    { (add_solution 0 s).2 with min_remaining := 0 }
  else if ((r.intersectMap B).length : Int) - (s.solution.length : Int) ≤ s.min_remaining then
    let s₁ := { s with
      min_remaining := ((r.intersectMap B).length : Int) - (s.solution.length : Int) }
    (add_solution s₁.min_remaining s₁).2
  else s

/-- The candidate loop of `Run._test`: commit the candidate, re-propagate
through the perpendicular runs, collect it into `valid` if no contradiction,
record full/partial solutions, then roll back to the candidate's first
committed coordinate. -/
def testLoop (B : Board) (r : RunData) (fuel : Nat) :
    List (List Nat) → List (List Nat) → SState → Option (List (List Nat) × SState)
  | [], valid, s => some (valid, s)
  | values :: restVals, valid, s =>
    match testCommit values r.coords 0 [] s with
    | none => none
    | some (testCoords, s₁) =>
      match testCheck B r fuel testCoords s₁ with
      | none => none
      | some (eliminated, s₂) =>
        let valid' := if eliminated = false then valid ++ [values] else valid
        let s₃ := recordSolutions B r s₂
        match (if testCoords ≠ [] then undo (testCoords.headD (0, 0)) s₃ else some s₃) with
        | none => none
        | some s₄ => testLoop B r fuel restVals valid' s₄

/-- `Run._test(value_set)`: after the candidate loop, a sole surviving
candidate is committed permanently. -/
def Run_test (B : Board) (r : RunData) (fuel : Nat)
    (value_set : List (List Nat)) (s : SState) : Option SState :=
  match testLoop B r fuel value_set [] s with
  | none => none
  | some (valid, s') =>
    if valid.length = 1 then
      match testCommit (valid.headD []) r.coords 0 [] s' with
      | none => none
      | some q => some q.2
    else some s'

/-- `list(required)` on a set of digits: CPython iterates small-int sets
effectively in ascending order; the model lists the members of 1..9
ascending. -/
def setToList (s : Finset Nat) : List Nat :=
  (List.range' 1 9).filter (fun d => decide (d ∈ s))

/-- `Run.test_possibilities(limit)` (`src/main.py` lines 410–427).  The
dead local `sub_sequences = get_unique_sums(remaining, length)` of the
source is pure and unused, and is omitted. -/
def test_possibilities (B : Board) (r : RunData) (limit : Nat) (fuel : Nat)
    (s : SState) : Option (SState × Bool) :=
  let ar := get_digits r s.solution
  let combos : List (List Nat) :=
    if ar.1.card = ar.2.card ∧ ar.1.card > 0 then
      combinations (setToList ar.2)
    else
      let rl := r.coords.foldl
        (fun (acc : Int × Int) coord =>
          match storeLookup s.solution coord with
          | some v => (acc.1 - v, acc.2 - 1)
          | none => acc)
        ((r.total : Int), (r.length : Int))
      if rl.2 = 2 then get_sums rl.1.toNat 2 else []
  if combos.length ≤ limit ∧ combos.length ≠ 0 then
    match Run_test B r fuel combos s with
    | none => none
    | some s' => some (s', decide (combos.length ≤ limit))
  else some (s, decide (combos.length ≤ limit))

/-! ## The solve driver (`Solver.solve`, `src/main.py` lines 293–322) -/

/-- `for run in self.unique_runs_h + self.unique_runs_v:
current_filled += run.fill_cells()`. -/
def fillPass (B : Board) (fuel : Nat) :
    List Nat → Int → SState → Option (Int × SState)
  | [], acc, s => some (acc, s)
  | rid :: rest, acc, s =>
    match fillCells B rid false fuel s with
    | none => none
    | some (s', res) => fillPass B fuel rest (acc + res) s'

/-- `for run in ...: all_tested &= run.test_possibilities(limit)`. -/
def testPass (B : Board) (limit : Nat) (fuel : Nat) :
    List Nat → Bool → SState → Option (Bool × SState)
  | [], allTested, s => some (allTested, s)
  | rid :: rest, allTested, s =>
    match B.runs.get? rid with
    | none => none
    | some r =>
      match test_possibilities B r limit fuel s with
      | none => none
      | some (s', b) => testPass B limit fuel rest (allTested && b) s'

/-- The fallback selection block of `Solver.solve` (lines 308–311):

    for partial_solution in self.solutions:
        if len(partial_solution) == Run.min_remaining:
            self.solution = partial_solution

Iterating a dict yields its KEYS: `partial_solution` is an md5 hex digest,
whose `len` is always 32, and the assignment would store that digest STRING
in `self.solution` (not the snapshot).  The function returns the last key
the loop would assign, or `none` when no key matches. -/
def fallbackSelect (s : SState) : Option Digest :=
  s.solutions.foldl
    (fun acc kv => if (kv.1.pyLen : Int) = s.min_remaining then some kv.1 else acc)
    none

/-- The `while` loop of `Solver.solve`, with `rounds` the structural bound
(the loop guard `iterations < 45` makes `45 - iterations` decrease every
round; callers pass `rounds = 45 - iterations`).  A firing fallback
assignment replaces `self.solution` with a digest string, after which every
later dictionary operation on it fails in Python; the model returns `none`
there. -/
def solveLoop (B : Board) (fuel : Nat) :
    Nat → Nat → Int → Nat → SState → Option (SState × Nat × Nat)
  | 0, iterations, _, limit, s => some (s, iterations, limit)
  | rounds + 1, iterations, currentFilled, limit, s =>
    if s.solution.length < B.hmap.length ∧ iterations < 45 then
      match fillPass B fuel (B.uniqueH ++ B.uniqueV) 0 s with
      | none => none
      | some (cf, s₁) =>
        if currentFilled = 0 then
          match testPass B limit fuel (B.uniqueH ++ B.uniqueV) true s₁ with
          | none => none
          | some (allTested, s₂) =>
            if allTested then
              if s₂.min_remaining > 0 then
                match fallbackSelect s₂ with
                | some _ => none
                | none => solveLoop B fuel rounds (iterations + 1) cf (limit * 2) s₂
              else some (s₂, iterations + 1, limit)
            else solveLoop B fuel rounds (iterations + 1) cf (limit * 2) s₂
        else solveLoop B fuel rounds (iterations + 1) cf limit s₁
    else some (s, iterations, limit)

/-- `Solver.print_solutions` (lines 324–339), reduced to the Solution
Records it prints: every stored snapshot whose key is not marked partial,
or whose partial count equals the current `Run.min_remaining`. -/
def printSolutions (s : SState) : List Store :=
  (s.solutions.filter (fun kv =>
    match dLookup s.partCounts kv.1 with
    | none => true
    | some cnt => decide (s.min_remaining = cnt))).map Prod.snd

/-- The class-level `Run` attributes that persist across `Solver`
instances: `coord_changes`, `h_guess_coords`, `v_guess_coords`,
`min_remaining`. -/
structure ClassState where
  coord_changes : List Coord
  hGuess : List Coord
  vGuess : List Coord
  min_remaining : Int

/-- End-to-end `Solver(puzzle).solve()` on parsed puzzle text, starting
from an arbitrary persistent class state: construction, the solve loop,
the final status message plus `add_solution` on completion, and the
reported Solution Records of `print_solutions`.  The Bool is the
`No unique solution found.` failure message. -/
def solveModel (lines : List (List PCell)) (cs : ClassState) (fuel : Nat) :
    Option (Bool × List Store) :=
  match buildSolver lines cs.min_remaining with
  | Except.error _ => none
  | Except.ok (B, mr) =>
    let s0 : SState := ⟨[], cs.coord_changes, cs.hGuess, cs.vGuess, mr,
      fun _ _ => ∅, [], []⟩
    match solveLoop B fuel 45 0 1 2 s0 with
    | none => none
    | some (s, _, _) =>
      if s.solution.length ≠ B.hmap.length then
        some (true, printSolutions s)
      else
        some (false, printSolutions (add_solution 0 { s with min_remaining := 0 }).2)

theorem solveLoop_bounds :
    ∀ (B : Board) (fuel rounds iterations : Nat) (cf : Int) (limit : Nat) (s : SState)
      (s' : SState) (it' lim' : Nat),
      solveLoop B fuel rounds iterations cf limit s = some (s', it', lim') →
      iterations ≤ it' ∧ it' ≤ iterations + rounds ∧
        ∃ k, k ≤ it' - iterations ∧ lim' = limit * 2 ^ k := by
  intro B fuel rounds
  induction rounds with
  | zero =>
    intro it cf lim s s' it' lim' h
    simp only [solveLoop, Option.some.injEq, Prod.mk.injEq] at h
    obtain ⟨_, h1, h2⟩ := h
    subst h1
    subst h2
    exact ⟨le_refl _, by omega, 0, by omega, by ring⟩
  | succ rounds ih =>
    intro it cf lim s s' it' lim' h
    simp only [solveLoop] at h
    split at h
    · split at h
      · cases h
      · split at h
        · split at h
          · cases h
          · split at h
            · split at h
              · split at h
                · cases h
                · obtain ⟨h1, h2, k, hk, hl⟩ := ih _ _ _ _ _ _ _ h
                  exact ⟨by omega, by omega, k + 1, by omega, by rw [hl]; ring⟩
              · simp only [Option.some.injEq, Prod.mk.injEq] at h
                obtain ⟨_, h1, h2⟩ := h
                exact ⟨by omega, by omega, 0, by omega, by rw [← h2]; ring⟩
            · obtain ⟨h1, h2, k, hk, hl⟩ := ih _ _ _ _ _ _ _ h
              exact ⟨by omega, by omega, k + 1, by omega, by rw [hl]; ring⟩
        · obtain ⟨h1, h2, k, hk, hl⟩ := ih _ _ _ _ _ _ _ h
          exact ⟨by omega, by omega, k, by omega, hl⟩
    · simp only [Option.some.injEq, Prod.mk.injEq] at h
      obtain ⟨_, h1, h2⟩ := h
      subst h1
      subst h2
      exact ⟨le_refl _, by omega, 0, by omega, by ring⟩

/-- C7: `Solver.solve` always terminates — the model of its `while` loop is
a total function whose recursion is bounded by the hard iteration cap
(`rounds = 45 - iterations`, and the loop guard `iterations < 45`): however
it exits, the final iteration count is at most 45, and the enumeration
budget passed to `test_possibilities`, which `solve` starts at 2, has been
doubled once per Stalled round it went through (final limit `2 * 2^k` with
`k` at most the number of rounds executed). -/
theorem C7_solve_iteration_cap (B : Board) (fuel : Nat) (s : SState)
    (s' : SState) (it' lim' : Nat)
    (h : solveLoop B fuel 45 0 1 2 s = some (s', it', lim')) :
    it' ≤ 45 ∧ ∃ k, k ≤ it' ∧ lim' = 2 * 2 ^ k := by
  obtain ⟨h1, h2, k, hk, hl⟩ := solveLoop_bounds B fuel 45 0 1 2 s s' it' lim' h
  exact ⟨by omega, k, by omega, hl⟩

/-- A 2x2 fully-determined puzzle (horizontal totals 3 and 7, vertical
totals 4 and 6) that propagation solves in one round. -/
def C7lines : List (List PCell) :=
  [ [PCell.other, PCell.other, PCell.other],
    [PCell.num 3, PCell.num 0, PCell.num 0],
    [PCell.num 7, PCell.num 0, PCell.num 0],
    [],
    [PCell.other, PCell.num 4, PCell.num 6],
    [PCell.other, PCell.num 0, PCell.num 0],
    [PCell.other, PCell.num 0, PCell.num 0] ]

def C7B : Board :=
  match buildSolver C7lines 0 with
  | Except.ok (B, _) => B
  | Except.error _ => ⟨[], [], [], [], [], 0, 0⟩

def C7s0 : SState :=
  ⟨[], [], [], [], 4, fun _ _ => ∅, [], []⟩

theorem C7_solve_iteration_cap_witness :
    ∃ out, solveLoop C7B 5 45 0 1 2 C7s0 = some out ∧
      out.2.1 ≤ 45 ∧ ∃ k, k ≤ out.2.1 ∧ out.2.2 = 2 * 2 ^ k := by
  have hs : (solveLoop C7B 5 45 0 1 2 C7s0).isSome = true := by decide
  have hp : solveLoop C7B 5 45 0 1 2 C7s0 =
      some ((solveLoop C7B 5 45 0 1 2 C7s0).get hs) := (Option.some_get hs).symm
  exact ⟨_, hp, C7_solve_iteration_cap C7B 5 C7s0 _ _ _ hp⟩

/-- C1 (code bug): the Exhausted-path fallback of `Solver.solve` iterates
the KEYS of the solutions dict (md5 hex digests, whose Python length is
always 32) and compares that length with `Run.min_remaining`; consequently,
whenever the best partial record's remaining count is not 32 (first
conjunct: an arbitrary Solution Record Set, `min_remaining = 3`), no
assignment fires and `self.solution` is left unchanged — the stored partial
snapshot is never selected; and in the sole firing case
(`min_remaining = 32`, second conjunct) what is assigned is the digest key
itself, of type `Digest`, not the snapshot.  This contradicts the claimed
fallback to the best partial Solution Record. -/
theorem C1_fallback_ignores_partial :
    (∀ (sol : Store) (stack hg vg : List Coord) (dcs : Nat → Nat → Finset Coord)
      (sols : List (Digest × Store)) (parts : List (Digest × Int)),
      fallbackSelect ⟨sol, stack, hg, vg, 3, dcs, sols, parts⟩ = none) ∧
    (∀ (sol snap : Store) (d : Digest) (stack hg vg : List Coord)
      (dcs : Nat → Nat → Finset Coord) (parts : List (Digest × Int)),
      fallbackSelect ⟨sol, stack, hg, vg, 32, dcs, [(d, snap)], parts⟩ = some d) := by
  constructor
  · intro sol stack hg vg dcs sols parts
    unfold fallbackSelect
    have hgen : ∀ (l : List (Digest × Store)) (acc : Option Digest),
        l.foldl (fun acc kv =>
          if (kv.1.pyLen : Int) =
              (SState.mk sol stack hg vg 3 dcs sols parts).min_remaining
          then some kv.1 else acc) acc = acc := by
      intro l
      induction l with
      | nil => intro acc; rfl
      | cons kv rest ih =>
        intro acc
        simp only [List.foldl_cons]
        rw [if_neg (by simp [Digest.pyLen])]
        exact ih acc
    exact hgen sols none
  · intro sol snap d stack hg vg dcs parts
    rfl

/-! ## C9: determinism of `solve` across the persistent class-level state

`Run` keeps `coord_changes`, `h_guess_coords`, `v_guess_coords` and
`min_remaining` at class level, so a second `Solver` run starts with
whatever the first left behind.  The simulation relation below relates two
solver states that agree on everything observable (the cores) and whose
undo stacks share the same freshly-pushed prefix `L` over two arbitrary
stale tails `cs`, `ct` inherited from earlier runs; every routine of the
solve pipeline is shown to preserve it, the crucial step being that
`Run.undo` is only ever invoked on a coordinate pushed during the current
session, so it never pops into the stale region. -/

/-- The observable part of the solver state: everything except the undo
stack and the two guess dictionaries (which are written but never read). -/
def coreEq (s t : SState) : Prop :=
  s.solution = t.solution ∧ s.min_remaining = t.min_remaining ∧
    s.dcs = t.dcs ∧ s.solutions = t.solutions ∧ s.partCounts = t.partCounts

/-- Equal cores, and undo stacks sharing prefix `L` over stale tails. -/
def simL (cs ct L : List Coord) (s t : SState) : Prop :=
  coreEq s t ∧ s.coord_changes = L ++ cs ∧ t.coord_changes = L ++ ct

/-- `simL` for some extension of `L` (the routine only pushed). -/
def simExt (cs ct L : List Coord) (s t : SState) : Prop :=
  ∃ P, simL cs ct (P ++ L) s t

/-- `simL` for some prefix (pushes and rollbacks both allowed). -/
def simAny (cs ct : List Coord) (s t : SState) : Prop :=
  ∃ L, simL cs ct L s t

theorem simExt_of {cs ct L : List Coord} {s t : SState}
    (h : simL cs ct L s t) : simExt cs ct L s t :=
  ⟨[], h⟩

theorem simExt_absorb {cs ct P L : List Coord} {s t : SState}
    (h : simExt cs ct (P ++ L) s t) : simExt cs ct L s t := by
  obtain ⟨Q, hq⟩ := h
  exact ⟨Q ++ P, by rw [List.append_assoc]; exact hq⟩

theorem add_found_simL {cs ct L : List Coord} {s t : SState} (c : Coord)
    (d : Nat) (tb : Bool) (h : simL cs ct L s t) :
    simL cs ct (c :: L) (add_found c d tb s) (add_found c d tb t) := by
  obtain ⟨⟨h1, h2, h3, h4, h5⟩, hs, ht⟩ := h
  refine ⟨⟨?_, h2, h3, h4, h5⟩, ?_, ?_⟩
  · simp only [add_found, h1]
  · simp only [add_found, hs, List.cons_append]
  · simp only [add_found, ht, List.cons_append]

theorem undoAux_sim (cs ct : List Coord) (guess : Coord) :
    ∀ (L : List Coord) (sol : Store), guess ∈ L →
      (undoAux guess (L ++ cs) sol = none ∧ undoAux guess (L ++ ct) sol = none) ∨
      ∃ L' sol', undoAux guess (L ++ cs) sol = some (L' ++ cs, sol') ∧
        undoAux guess (L ++ ct) sol = some (L' ++ ct, sol') := by
  intro L
  induction L with
  | nil => intro sol hg; cases hg
  | cons c rest ih =>
    intro sol hg
    cases hcl : storeLookup sol c with
    | none =>
      left
      constructor
      · simp only [List.cons_append, undoAux, hcl]
      · simp only [List.cons_append, undoAux, hcl]
    | some v =>
      by_cases hc : c = guess
      · right
        refine ⟨rest, storeErase sol c, ?_, ?_⟩
        · simp only [List.cons_append, undoAux, hcl, if_pos hc, List.append_eq]
        · simp only [List.cons_append, undoAux, hcl, if_pos hc, List.append_eq]
      · have hg' : guess ∈ rest := by
          rcases List.mem_cons.mp hg with h | h
          · exact absurd h.symm hc
          · exact h
        have := ih (storeErase sol c) hg'
        rcases this with ⟨ha, hb⟩ | ⟨L', sol', ha, hb⟩
        · left
          constructor
          · simp only [List.cons_append, undoAux, hcl, if_neg hc]; exact ha
          · simp only [List.cons_append, undoAux, hcl, if_neg hc]; exact hb
        · right
          refine ⟨L', sol', ?_, ?_⟩
          · simp only [List.cons_append, undoAux, hcl, if_neg hc]; exact ha
          · simp only [List.cons_append, undoAux, hcl, if_neg hc]; exact hb

theorem undo_sim {cs ct L : List Coord} {s t : SState} (guess : Coord)
    (hg : guess ∈ L) (h : simL cs ct L s t) :
    (undo guess s = none ∧ undo guess t = none) ∨
    ∃ s' t', undo guess s = some s' ∧ undo guess t = some t' ∧
      simAny cs ct s' t' := by
  obtain ⟨⟨h1, h2, h3, h4, h5⟩, hs, ht⟩ := h
  rcases undoAux_sim cs ct guess L s.solution hg with ⟨ha, hb⟩ | ⟨L', sol', ha, hb⟩
  · have hb' : undoAux guess (L ++ ct) t.solution = none := h1 ▸ hb
    left
    constructor
    · simp only [undo, hs, ha, Option.map_none']
    · simp only [undo, ht, hb', Option.map_none']
  · have hb' : undoAux guess (L ++ ct) t.solution = some (L' ++ ct, sol') := h1 ▸ hb
    right
    refine ⟨{ s with coord_changes := L' ++ cs, solution := sol' },
      { t with coord_changes := L' ++ ct, solution := sol' }, ?_, ?_, ?_⟩
    · simp only [undo, hs, ha, Option.map_some']
    · simp only [undo, ht, hb', Option.map_some']
    · exact ⟨L', ⟨⟨rfl, h2, h3, h4, h5⟩, rfl, rfl⟩⟩

theorem add_solution_sim {cs ct L : List Coord} {s t : SState} (remaining : Int)
    (h : simL cs ct L s t) :
    (add_solution remaining s).1 = (add_solution remaining t).1 ∧
      simL cs ct L (add_solution remaining s).2 (add_solution remaining t).2 := by
  obtain ⟨⟨h1, h2, h3, h4, h5⟩, hs, ht⟩ := h
  simp only [add_solution, h1, h4, h5]
  by_cases hd : dLookup t.solutions (mkDigest t.solution) = none
  · simp only [if_pos hd]
    refine ⟨?_, ⟨⟨?_, h2, h3, ?_, ?_⟩, hs, ht⟩⟩ <;> trivial
  · simp only [if_neg hd]
    refine ⟨?_, ⟨⟨?_, h2, h3, ?_, ?_⟩, hs, ht⟩⟩ <;> trivial

theorem resetDcs_simL {cs ct L : List Coord} {s t : SState} (rid : Nat)
    (h : simL cs ct L s t) : simL cs ct L (resetDcs rid s) (resetDcs rid t) := by
  obtain ⟨⟨h1, h2, h3, h4, h5⟩, hs, ht⟩ := h
  refine ⟨⟨h1, h2, ?_, h4, h5⟩, hs, ht⟩
  simp only [resetDcs, h3]

theorem dcsAddAll_simL {cs ct L : List Coord} {s t : SState} (rid : Nat)
    (common : Finset Nat) (coord : Coord) (h : simL cs ct L s t) :
    simL cs ct L (dcsAddAll rid common coord s) (dcsAddAll rid common coord t) := by
  obtain ⟨⟨h1, h2, h3, h4, h5⟩, hs, ht⟩ := h
  refine ⟨⟨h1, h2, ?_, h4, h5⟩, hs, ht⟩
  simp only [dcsAddAll, h3]

theorem fillStep_sim {cs ct L : List Coord} {s t : SState} (B : Board)
    (rid : Nat) (r : RunData) (test : Bool) (coord : Coord)
    (d1 d2 : Finset Nat) (filled : Nat) (h : simL cs ct L s t) :
    (fillStep B rid r test coord d1 d2 filled s = CellOutcome.skip ∧
     fillStep B rid r test coord d1 d2 filled t = CellOutcome.skip) ∨
    (fillStep B rid r test coord d1 d2 filled s = CellOutcome.keyErr ∧
     fillStep B rid r test coord d1 d2 filled t = CellOutcome.keyErr) ∨
    (fillStep B rid r test coord d1 d2 filled s = CellOutcome.contra ∧
     fillStep B rid r test coord d1 d2 filled t = CellOutcome.contra) ∨
    (∃ P s' t' d2' f' pid,
      fillStep B rid r test coord d1 d2 filled s = CellOutcome.step s' d2' f' pid ∧
      fillStep B rid r test coord d1 d2 filled t = CellOutcome.step t' d2' f' pid ∧
      simL cs ct (P ++ L) s' t') := by
  have h0 := h
  obtain ⟨⟨h1, h2, h3, h4, h5⟩, hs, ht⟩ := h
  by_cases hc : storeLookup s.solution coord = none
  · cases him : storeLookup (r.intersectMap B) coord with
    | none =>
      simp only [fillStep, ← h1, if_pos hc, him]
      exact Or.inr (Or.inl ⟨by trivial, by trivial⟩)
    | some pid =>
      cases hpr : B.runs.get? pid with
      | none =>
        simp only [fillStep, ← h1, if_pos hc, him, hpr]
        exact Or.inr (Or.inl ⟨by trivial, by trivial⟩)
      | some pr =>
        by_cases h1c : ((get_digits pr s.solution).1 ∩ d1).card = 1
        · simp only [fillStep, ← h1, if_pos hc, him, hpr, if_pos h1c]
          exact Or.inr (Or.inr (Or.inr ⟨[coord], _, _, _, _, pid, by trivial,
            by trivial, add_found_simL coord _ test h0⟩))
        · by_cases h0c : ((get_digits pr s.solution).1 ∩ d1).card = 0
          · simp only [fillStep, ← h1, if_pos hc, him, hpr, if_neg h1c, if_pos h0c]
            exact Or.inr (Or.inr (Or.inl ⟨by trivial, by trivial⟩))
          · simp only [fillStep, ← h1, if_pos hc, him, hpr, if_neg h1c, if_neg h0c]
            exact Or.inr (Or.inr (Or.inr ⟨[], _, _, _, _, pid, by trivial,
              by trivial, dcsAddAll_simL rid _ coord h0⟩))
  · simp only [fillStep, ← h1, if_neg hc]
    exact Or.inl ⟨by trivial, by trivial⟩

/-- Relation between two `fill_cells`-style results. -/
def simRes (cs ct L : List Coord) :
    Option (SState × Int) → Option (SState × Int) → Prop
  | none, none => True
  | some (s, r), some (t, r') => r = r' ∧ simExt cs ct L s t
  | _, _ => False

/-- Relation between two `fillLoop` results. -/
def simOut (cs ct L : List Coord) :
    Option ((SState × Finset Nat × Nat) ⊕ (SState × Int)) →
      Option ((SState × Finset Nat × Nat) ⊕ (SState × Int)) → Prop
  | none, none => True
  | some (Sum.inl (s, d, f)), some (Sum.inl (t, d', f')) =>
      d = d' ∧ f = f' ∧ simExt cs ct L s t
  | some (Sum.inr (s, r)), some (Sum.inr (t, r')) => r = r' ∧ simExt cs ct L s t
  | _, _ => False

theorem simRes_mono {cs ct P L : List Coord}
    {o o' : Option (SState × Int)}
    (h : simRes cs ct (P ++ L) o o') : simRes cs ct L o o' := by
  match o, o', h with
  | none, none, _ => exact True.intro
  | some (s, r), some (t, r'), h => exact ⟨h.1, simExt_absorb h.2⟩
  | none, some (t, r'), h => exact False.elim h
  | some (s, r), none, h => exact False.elim h

theorem simOut_mono {cs ct P L : List Coord}
    {o o' : Option ((SState × Finset Nat × Nat) ⊕ (SState × Int))}
    (h : simOut cs ct (P ++ L) o o') : simOut cs ct L o o' := by
  match o, o', h with
  | none, none, _ => exact True.intro
  | some (Sum.inl (s, d, f)), some (Sum.inl (t, d', f')), h =>
    exact ⟨h.1, h.2.1, simExt_absorb h.2.2⟩
  | some (Sum.inr (s, r)), some (Sum.inr (t, r')), h =>
    exact ⟨h.1, simExt_absorb h.2⟩
  | none, some (Sum.inl (t, d', f')), h => exact False.elim h
  | none, some (Sum.inr (t, r')), h => exact False.elim h
  | some (Sum.inl (s, d, f)), none, h => exact False.elim h
  | some (Sum.inr (s, r)), none, h => exact False.elim h
  | some (Sum.inl (s, d, f)), some (Sum.inr (t, r')), h => exact False.elim h
  | some (Sum.inr (s, r)), some (Sum.inl (t, d', f')), h => exact False.elim h

theorem fillLoop_sim (cs ct : List Coord) (B : Board) (rid : Nat) (r : RunData)
    (test : Bool) (recS recT : Nat → SState → Option (SState × Int))
    (hrec : ∀ (pid : Nat) (L : List Coord) (s t : SState), simL cs ct L s t →
      simRes cs ct L (recS pid s) (recT pid t)) :
    ∀ (coords : List Coord) (d1 d2 : Finset Nat) (filled : Nat)
      (L : List Coord) (s t : SState), simL cs ct L s t →
      simOut cs ct L (fillLoop B rid r test recS coords d1 d2 filled s)
        (fillLoop B rid r test recT coords d1 d2 filled t) := by
  intro coords
  induction coords with
  | nil =>
    intro d1 d2 filled L s t h
    exact ⟨rfl, rfl, simExt_of h⟩
  | cons coord rest ih =>
    intro d1 d2 filled L s t h
    rcases fillStep_sim B rid r test coord d1 d2 filled h with
      ⟨ha, hb⟩ | ⟨ha, hb⟩ | ⟨ha, hb⟩ | ⟨P, s', t', d2', f', pid, ha, hb, hstep⟩
    · simp only [fillLoop, ha, hb]
      exact ih d1 d2 filled L s t h
    · simp only [fillLoop, ha, hb]
      exact True.intro
    · simp only [fillLoop, ha, hb]
      exact ⟨rfl, simExt_of h⟩
    · simp only [fillLoop, ha, hb]
      by_cases hcond : test = true ∧ f' ≠ 0
      · simp only [if_pos hcond]
        have hr := hrec pid (P ++ L) s' t' hstep
        cases hcs : recS pid s' with
        | none =>
          cases hct : recT pid t' with
          | none => exact True.intro
          | some q =>
            obtain ⟨qt, qr'⟩ := q
            rw [hcs, hct] at hr
            exact False.elim hr
        | some q =>
          obtain ⟨qs, qr⟩ := q
          cases hct : recT pid t' with
          | none =>
            rw [hcs, hct] at hr
            exact False.elim hr
          | some q' =>
            obtain ⟨qt, qr'⟩ := q'
            rw [hcs, hct] at hr
            obtain ⟨hreq, hqext⟩ := hr
            subst hreq
            by_cases hneg : qr = -1
            · simp only [if_pos hneg]
              exact ⟨rfl, simExt_absorb hqext⟩
            · simp only [if_neg hneg]
              obtain ⟨Q, hQ⟩ := hqext
              have hrec2 := ih d1 d2' f' (Q ++ (P ++ L)) qs qt hQ
              rw [← List.append_assoc] at hrec2
              exact simOut_mono hrec2
      · simp only [if_neg hcond]
        exact simOut_mono (ih d1 d2' f' (P ++ L) s' t' hstep)

/-- The body of the `for x in range(1, 10)` loop of `Run._fill_unique`,
factored out of `fill_unique`. -/
def fuStep (rid : Nat) (required_digits : Finset Nat) (acc : SState × Nat)
    (digit : Nat) : SState × Nat :=
  let coords := acc.1.dcs rid digit
  if coords.card = 1 ∧ digit ∈ required_digits then
    let coord := coordPop coords
    let s₁ := { acc.1 with
      dcs := fun i d =>
        if i = rid ∧ d = digit then coords.erase coord else acc.1.dcs i d }
    if storeLookup s₁.solution coord = none then
      (add_found coord digit false s₁, acc.2 + 1)
    else (s₁, acc.2)
  else acc

theorem fill_unique_eq_fold (rid : Nat) (req : Finset Nat) (s : SState) :
    fill_unique rid req s = (List.range' 1 9).foldl (fuStep rid req) (s, 0) := rfl

theorem fuStep_sim {cs ct L : List Coord} {s t : SState} (rid : Nat)
    (req : Finset Nat) (d n : Nat) (h : simL cs ct L s t) :
    ∃ P s' t' n',
      fuStep rid req (s, n) d = (s', n') ∧ fuStep rid req (t, n) d = (t', n') ∧
        simL cs ct (P ++ L) s' t' := by
  have h0 := h
  obtain ⟨⟨h1, h2, h3, h4, h5⟩, hs, ht⟩ := h
  by_cases hcd : (s.dcs rid d).card = 1 ∧ d ∈ req
  · have hcd' : (t.dcs rid d).card = 1 ∧ d ∈ req := by rw [← h3]; exact hcd
    have hsim1 : simL cs ct L
        { s with dcs := fun i d' =>
            if i = rid ∧ d' = d then (s.dcs rid d).erase (coordPop (s.dcs rid d))
            else s.dcs i d' }
        { t with dcs := fun i d' =>
            if i = rid ∧ d' = d then (t.dcs rid d).erase (coordPop (t.dcs rid d))
            else t.dcs i d' } := by
      refine ⟨⟨h1, h2, ?_, h4, h5⟩, hs, ht⟩
      rw [h3]
    by_cases hlu : storeLookup s.solution (coordPop (s.dcs rid d)) = none
    · have hlu' : storeLookup t.solution (coordPop (t.dcs rid d)) = none := by
        rw [← h3, ← h1]; exact hlu
      refine ⟨[coordPop (s.dcs rid d)],
        add_found (coordPop (s.dcs rid d)) d false
          { s with dcs := fun i d' =>
              if i = rid ∧ d' = d then (s.dcs rid d).erase (coordPop (s.dcs rid d))
              else s.dcs i d' },
        add_found (coordPop (t.dcs rid d)) d false
          { t with dcs := fun i d' =>
              if i = rid ∧ d' = d then (t.dcs rid d).erase (coordPop (t.dcs rid d))
              else t.dcs i d' },
        n + 1, ?_, ?_, ?_⟩
      · simp only [fuStep, if_pos hcd, if_pos hlu]
      · simp only [fuStep, if_pos hcd', if_pos hlu']
      · have hres := add_found_simL (coordPop (s.dcs rid d)) d false hsim1
        rw [h3]
        rw [h3] at hres
        exact hres
    · have hlu' : ¬ storeLookup t.solution (coordPop (t.dcs rid d)) = none := by
        rw [← h3, ← h1]; exact hlu
      refine ⟨[],
        { s with dcs := fun i d' =>
            if i = rid ∧ d' = d then (s.dcs rid d).erase (coordPop (s.dcs rid d))
            else s.dcs i d' },
        { t with dcs := fun i d' =>
            if i = rid ∧ d' = d then (t.dcs rid d).erase (coordPop (t.dcs rid d))
            else t.dcs i d' },
        n, ?_, ?_, ?_⟩
      · simp only [fuStep, if_pos hcd, if_neg hlu]
      · simp only [fuStep, if_pos hcd', if_neg hlu']
      · exact hsim1
  · have hcd' : ¬ ((t.dcs rid d).card = 1 ∧ d ∈ req) := by rw [← h3]; exact hcd
    refine ⟨[], s, t, n, ?_, ?_, h0⟩
    · simp only [fuStep, if_neg hcd]
    · simp only [fuStep, if_neg hcd']

theorem fuFold_sim (cs ct : List Coord) (rid : Nat) (req : Finset Nat) :
    ∀ (ds : List Nat) (L : List Coord) (s t : SState) (n : Nat),
      simL cs ct L s t →
      (ds.foldl (fuStep rid req) (s, n)).2 = (ds.foldl (fuStep rid req) (t, n)).2 ∧
        simExt cs ct L (ds.foldl (fuStep rid req) (s, n)).1
          (ds.foldl (fuStep rid req) (t, n)).1 := by
  intro ds
  induction ds with
  | nil =>
    intro L s t n h
    exact ⟨rfl, simExt_of h⟩
  | cons d rest ih =>
    intro L s t n h
    obtain ⟨P, s', t', n', hfs, hft, hsim⟩ := fuStep_sim rid req d n h
    simp only [List.foldl_cons, hfs, hft]
    obtain ⟨he, hext⟩ := ih (P ++ L) s' t' n' hsim
    exact ⟨he, simExt_absorb hext⟩

theorem fill_unique_sim {cs ct L : List Coord} {s t : SState} (rid : Nat)
    (req : Finset Nat) (h : simL cs ct L s t) :
    (fill_unique rid req s).2 = (fill_unique rid req t).2 ∧
      simExt cs ct L (fill_unique rid req s).1 (fill_unique rid req t).1 := by
  rw [fill_unique_eq_fold, fill_unique_eq_fold]
  exact fuFold_sim cs ct rid req (List.range' 1 9) L s t 0 h

theorem fillCells_sim (cs ct : List Coord) (B : Board) (test : Bool) :
    ∀ (fuel rid : Nat) (L : List Coord) (s t : SState),
      simL cs ct L s t →
      simRes cs ct L (fillCells B rid test fuel s) (fillCells B rid test fuel t) := by
  intro fuel
  induction fuel with
  | zero =>
    intro rid L s t h
    exact True.intro
  | succ fuel ih =>
    intro rid L s t h
    have h0 := h
    obtain ⟨⟨h1, h2, h3, h4, h5⟩, hs, ht⟩ := h
    cases hr : B.runs.get? rid with
    | none =>
      simp only [fillCells, hr]
      exact True.intro
    | some r =>
      simp only [fillCells, hr]
      have hsol : (resetDcs rid t).solution = (resetDcs rid s).solution := by
        simp only [resetDcs, h1]
      rw [hsol]
      have hres : simL cs ct L (resetDcs rid s) (resetDcs rid t) := resetDcs_simL rid h0
      by_cases hdup : (get_found r (resetDcs rid s).solution).length ≠
          (get_found r (resetDcs rid s).solution).toFinset.card
      · simp only [if_pos hdup]
        exact ⟨rfl, simExt_of hres⟩
      · simp only [if_neg hdup]
        have hfl := fillLoop_sim cs ct B rid r test
          (fun pid s' => fillCells B pid test fuel s')
          (fun pid s' => fillCells B pid test fuel s')
          (fun pid L' s' t' h' => ih pid L' s' t' h')
          r.coords (get_digits r (resetDcs rid s).solution).1
          (get_digits r (resetDcs rid s).solution).2 0 L
          (resetDcs rid s) (resetDcs rid t) hres
        rcases hA : fillLoop B rid r test (fun pid s' => fillCells B pid test fuel s')
            r.coords (get_digits r (resetDcs rid s).solution).1
            (get_digits r (resetDcs rid s).solution).2 0 (resetDcs rid s) with
          _ | (⟨s₂, d2A, fA⟩ | ⟨s₂, resA⟩) <;>
        rcases hB : fillLoop B rid r test (fun pid s' => fillCells B pid test fuel s')
            r.coords (get_digits r (resetDcs rid s).solution).1
            (get_digits r (resetDcs rid s).solution).2 0 (resetDcs rid t) with
          _ | (⟨t₂, d2B, fB⟩ | ⟨t₂, resB⟩) <;>
        rw [hA, hB] at hfl
        · exact True.intro
        · exact False.elim hfl
        · exact False.elim hfl
        · exact False.elim hfl
        · obtain ⟨hd, hf, hext⟩ := hfl
          subst hd
          subst hf
          obtain ⟨Q, hQ⟩ := hext
          obtain ⟨he, hext2⟩ := fill_unique_sim rid d2A hQ
          exact ⟨by rw [he], simExt_absorb hext2⟩
        · exact False.elim hfl
        · exact False.elim hfl
        · exact False.elim hfl
        · exact hfl

theorem testCommit_sim (cs ct : List Coord) (values : List Nat) :
    ∀ (coords : List Coord) (idx : Nat) (tcs : List Coord) (L : List Coord)
      (s t : SState), simL cs ct L s t →
      (testCommit values coords idx tcs s = none ∧
       testCommit values coords idx tcs t = none) ∨
      ∃ Δ s' t', testCommit values coords idx tcs s = some (tcs ++ Δ, s') ∧
        testCommit values coords idx tcs t = some (tcs ++ Δ, t') ∧
        simL cs ct (Δ.reverse ++ L) s' t' := by
  intro coords
  induction coords with
  | nil =>
    intro idx tcs L s t h
    right
    exact ⟨[], s, t, by simp [testCommit], by simp [testCommit], by simpa using h⟩
  | cons coord rest ih =>
    intro idx tcs L s t h
    have h0 := h
    obtain ⟨⟨h1, h2, h3, h4, h5⟩, hs, ht⟩ := h
    by_cases hc : storeLookup s.solution coord = none
    · cases hv : values.get? idx with
      | none =>
        left
        constructor
        · simp only [testCommit, if_pos hc, hv]
        · simp only [testCommit, ← h1, if_pos hc, hv]
      | some v =>
        have hrec := ih (idx + 1) (tcs ++ [coord]) (coord :: L)
          (add_found coord v false s) (add_found coord v false t)
          (add_found_simL coord v false h0)
        rcases hrec with ⟨ha, hb⟩ | ⟨Δ, s', t', ha, hb, hsim⟩
        · left
          constructor
          · simp only [testCommit, if_pos hc, hv]
            exact ha
          · simp only [testCommit, ← h1, if_pos hc, hv]
            exact hb
        · right
          refine ⟨coord :: Δ, s', t', ?_, ?_, ?_⟩
          · simp only [testCommit, if_pos hc, hv]
            rw [ha]
            simp
          · simp only [testCommit, ← h1, if_pos hc, hv]
            rw [hb]
            simp
          · rw [List.reverse_cons, List.append_assoc]
            exact hsim
    · have hc' : ¬ storeLookup t.solution coord = none := by rw [← h1]; exact hc
      rcases ih idx tcs L s t h0 with ⟨ha, hb⟩ | ⟨Δ, s', t', ha, hb, hsim⟩
      · left
        constructor
        · simp only [testCommit, if_neg hc]
          exact ha
        · simp only [testCommit, if_neg hc']
          exact hb
      · right
        refine ⟨Δ, s', t', ?_, ?_, hsim⟩
        · simp only [testCommit, if_neg hc]
          exact ha
        · simp only [testCommit, if_neg hc']
          exact hb

theorem testCheck_sim (cs ct : List Coord) (B : Board) (r : RunData) (fuel : Nat) :
    ∀ (tcs : List Coord) (L : List Coord) (s t : SState), simL cs ct L s t →
      (testCheck B r fuel tcs s = none ∧ testCheck B r fuel tcs t = none) ∨
      ∃ b s' t', testCheck B r fuel tcs s = some (b, s') ∧
        testCheck B r fuel tcs t = some (b, t') ∧ simExt cs ct L s' t' := by
  intro tcs
  induction tcs with
  | nil =>
    intro L s t h
    right
    exact ⟨false, s, t, rfl, rfl, simExt_of h⟩
  | cons tc rest ih =>
    intro L s t h
    cases him : storeLookup (r.intersectMap B) tc with
    | none =>
      left
      constructor
      · simp only [testCheck, him]
      · simp only [testCheck, him]
    | some pid =>
      have hfc := fillCells_sim cs ct B true fuel pid L s t h
      rcases hcsA : fillCells B pid true fuel s with _ | ⟨s₁, res⟩
      · rcases hcsB : fillCells B pid true fuel t with _ | ⟨t₁, res'⟩
        · left
          constructor
          · simp only [testCheck, him, hcsA]
          · simp only [testCheck, him, hcsB]
        · rw [hcsA, hcsB] at hfc
          exact False.elim hfc
      · rcases hcsB : fillCells B pid true fuel t with _ | ⟨t₁, res'⟩
        · rw [hcsA, hcsB] at hfc
          exact False.elim hfc
        · rw [hcsA, hcsB] at hfc
          obtain ⟨hre, hext⟩ := hfc
          subst hre
          by_cases hneg : res = -1
          · right
            refine ⟨true, s₁, t₁, ?_, ?_, hext⟩
            · simp only [testCheck, him, hcsA, if_pos hneg]
            · simp only [testCheck, him, hcsB, if_pos hneg]
          · obtain ⟨Q, hQ⟩ := hext
            rcases ih (Q ++ L) s₁ t₁ hQ with ⟨ha, hb⟩ | ⟨b, s', t', ha, hb, hext2⟩
            · left
              constructor
              · simp only [testCheck, him, hcsA, if_neg hneg]
                exact ha
              · simp only [testCheck, him, hcsB, if_neg hneg]
                exact hb
            · right
              refine ⟨b, s', t', ?_, ?_, simExt_absorb hext2⟩
              · simp only [testCheck, him, hcsA, if_neg hneg]
                exact ha
              · simp only [testCheck, him, hcsB, if_neg hneg]
                exact hb

theorem recordSolutions_sim {cs ct L : List Coord} {s t : SState} (B : Board)
    (r : RunData) (h : simL cs ct L s t) :
    simL cs ct L (recordSolutions B r s) (recordSolutions B r t) := by
  have h0 := h
  obtain ⟨⟨h1, h2, h3, h4, h5⟩, hs, ht⟩ := h
  by_cases hfull : (r.intersectMap B).length = s.solution.length
  · have hfull' : (r.intersectMap B).length = t.solution.length := by
      rw [← h1]; exact hfull
    simp only [recordSolutions, if_pos hfull, if_pos hfull']
    obtain ⟨hb, ⟨⟨g1, g2, g3, g4, g5⟩, gs, gt⟩⟩ := add_solution_sim 0 h0
    exact ⟨⟨g1, rfl, g3, g4, g5⟩, gs, gt⟩
  · have hfull' : ¬ (r.intersectMap B).length = t.solution.length := by
      rw [← h1]; exact hfull
    by_cases hle : ((r.intersectMap B).length : Int) - (s.solution.length : Int) ≤
        s.min_remaining
    · have hle' : ((r.intersectMap B).length : Int) - (t.solution.length : Int) ≤
          t.min_remaining := by rw [← h1, ← h2]; exact hle
      simp only [recordSolutions, if_neg hfull, if_neg hfull', if_pos hle, if_pos hle']
      have hX : ((r.intersectMap B).length : Int) - (s.solution.length : Int)
          = ((r.intersectMap B).length : Int) - (t.solution.length : Int) := by rw [h1]
      rw [hX]
      have hsim1 : simL cs ct L
          { s with min_remaining :=
              ((r.intersectMap B).length : Int) - (t.solution.length : Int) }
          { t with min_remaining :=
              ((r.intersectMap B).length : Int) - (t.solution.length : Int) } :=
        ⟨⟨h1, rfl, h3, h4, h5⟩, hs, ht⟩
      exact (add_solution_sim _ hsim1).2
    · have hle' : ¬ ((r.intersectMap B).length : Int) - (t.solution.length : Int) ≤
          t.min_remaining := by rw [← h1, ← h2]; exact hle
      simp only [recordSolutions, if_neg hfull, if_neg hfull', if_neg hle, if_neg hle']
      exact h0

theorem testLoop_sim (cs ct : List Coord) (B : Board) (r : RunData) (fuel : Nat) :
    ∀ (vals valid : List (List Nat)) (s t : SState), simAny cs ct s t →
      (testLoop B r fuel vals valid s = none ∧
       testLoop B r fuel vals valid t = none) ∨
      ∃ v s' t', testLoop B r fuel vals valid s = some (v, s') ∧
        testLoop B r fuel vals valid t = some (v, t') ∧ simAny cs ct s' t' := by
  intro vals
  induction vals with
  | nil =>
    intro valid s t h
    right
    exact ⟨valid, s, t, rfl, rfl, h⟩
  | cons values restVals ih =>
    intro valid s t h
    obtain ⟨L, hL⟩ := h
    rcases testCommit_sim cs ct values r.coords 0 [] L s t hL with
      ⟨ha, hb⟩ | ⟨Δ, s₁, t₁, ha, hb, hsim1⟩
    · left
      constructor
      · simp only [testLoop, ha]
      · simp only [testLoop, hb]
    · rcases testCheck_sim cs ct B r fuel ([] ++ Δ) (Δ.reverse ++ L) s₁ t₁ hsim1 with
        ⟨hc, hd⟩ | ⟨elimB, s₂, t₂, hc, hd, hext⟩
      · left
        constructor
        · simp only [testLoop, ha, hc]
        · simp only [testLoop, hb, hd]
      · obtain ⟨Q, hQ⟩ := hext
        have hrec : simL cs ct (Q ++ (Δ.reverse ++ L))
            (recordSolutions B r s₂) (recordSolutions B r t₂) :=
          recordSolutions_sim B r hQ
        by_cases hne : ([] : List Coord) ++ Δ ≠ []
        · have hmem : (([] : List Coord) ++ Δ).headD (0, 0) ∈ Q ++ (Δ.reverse ++ L) := by
            cases Δ with
            | nil => exact absurd rfl hne
            | cons a as => simp
          rcases undo_sim ((([] : List Coord) ++ Δ).headD (0, 0)) hmem hrec with
            ⟨hu1, hu2⟩ | ⟨s₄, t₄, hu1, hu2, hany⟩
          · left
            constructor
            · simp only [testLoop, ha, hc, if_pos hne, hu1]
            · simp only [testLoop, hb, hd, if_pos hne, hu2]
          · rcases ih (if elimB = false then valid ++ [values] else valid) s₄ t₄ hany with
              ⟨hA, hB⟩ | ⟨v, s₅, t₅, hA, hB, hany2⟩
            · left
              constructor
              · simp only [testLoop, ha, hc, if_pos hne, hu1]
                exact hA
              · simp only [testLoop, hb, hd, if_pos hne, hu2]
                exact hB
            · right
              refine ⟨v, s₅, t₅, ?_, ?_, hany2⟩
              · simp only [testLoop, ha, hc, if_pos hne, hu1]
                exact hA
              · simp only [testLoop, hb, hd, if_pos hne, hu2]
                exact hB
        · rcases ih (if elimB = false then valid ++ [values] else valid)
              (recordSolutions B r s₂) (recordSolutions B r t₂)
              ⟨Q ++ (Δ.reverse ++ L), hrec⟩ with
            ⟨hA, hB⟩ | ⟨v, s₅, t₅, hA, hB, hany2⟩
          · left
            constructor
            · simp only [testLoop, ha, hc, if_neg hne]
              exact hA
            · simp only [testLoop, hb, hd, if_neg hne]
              exact hB
          · right
            refine ⟨v, s₅, t₅, ?_, ?_, hany2⟩
            · simp only [testLoop, ha, hc, if_neg hne]
              exact hA
            · simp only [testLoop, hb, hd, if_neg hne]
              exact hB

theorem Run_test_sim (cs ct : List Coord) (B : Board) (r : RunData) (fuel : Nat)
    (value_set : List (List Nat)) {s t : SState} (h : simAny cs ct s t) :
    (Run_test B r fuel value_set s = none ∧ Run_test B r fuel value_set t = none) ∨
    ∃ s' t', Run_test B r fuel value_set s = some s' ∧
      Run_test B r fuel value_set t = some t' ∧ simAny cs ct s' t' := by
  rcases testLoop_sim cs ct B r fuel value_set [] s t h with
    ⟨ha, hb⟩ | ⟨v, s₁, t₁, ha, hb, hany⟩
  · left
    exact ⟨by simp only [Run_test, ha], by simp only [Run_test, hb]⟩
  · by_cases hv : v.length = 1
    · obtain ⟨L, hL⟩ := hany
      rcases testCommit_sim cs ct (v.headD []) r.coords 0 [] L s₁ t₁ hL with
        ⟨hc, hd⟩ | ⟨Δ, s₂, t₂, hc, hd, hsim⟩
      · left
        constructor
        · simp only [Run_test, ha, if_pos hv, hc]
        · simp only [Run_test, hb, if_pos hv, hd]
      · right
        refine ⟨s₂, t₂, ?_, ?_, ⟨Δ.reverse ++ L, hsim⟩⟩
        · simp only [Run_test, ha, if_pos hv, hc]
        · simp only [Run_test, hb, if_pos hv, hd]
    · right
      refine ⟨s₁, t₁, ?_, ?_, hany⟩
      · simp only [Run_test, ha, if_neg hv]
      · simp only [Run_test, hb, if_neg hv]

theorem tpTail_sim (cs ct : List Coord) (B : Board) (r : RunData)
    (limit fuel : Nat) (combos : List (List Nat)) {s t : SState}
    (h : simAny cs ct s t) :
    ((if combos.length ≤ limit ∧ combos.length ≠ 0 then
        match Run_test B r fuel combos s with
        | none => none
        | some s' => some (s', decide (combos.length ≤ limit))
      else some (s, decide (combos.length ≤ limit))) = none ∧
     (if combos.length ≤ limit ∧ combos.length ≠ 0 then
        match Run_test B r fuel combos t with
        | none => none
        | some t' => some (t', decide (combos.length ≤ limit))
      else some (t, decide (combos.length ≤ limit))) = none) ∨
    ∃ b s' t',
      (if combos.length ≤ limit ∧ combos.length ≠ 0 then
        match Run_test B r fuel combos s with
        | none => none
        | some s' => some (s', decide (combos.length ≤ limit))
      else some (s, decide (combos.length ≤ limit))) = some (s', b) ∧
      (if combos.length ≤ limit ∧ combos.length ≠ 0 then
        match Run_test B r fuel combos t with
        | none => none
        | some t' => some (t', decide (combos.length ≤ limit))
      else some (t, decide (combos.length ≤ limit))) = some (t', b) ∧
      simAny cs ct s' t' := by
  by_cases hcl : combos.length ≤ limit ∧ combos.length ≠ 0
  · simp only [if_pos hcl]
    rcases Run_test_sim cs ct B r fuel combos h with ⟨ha, hb⟩ | ⟨s', t', ha, hb, hany⟩
    · left
      exact ⟨by simp only [ha], by simp only [hb]⟩
    · right
      exact ⟨decide (combos.length ≤ limit), s', t',
        by simp only [ha], by simp only [hb], hany⟩
  · simp only [if_neg hcl]
    right
    exact ⟨decide (combos.length ≤ limit), s, t, rfl, rfl, h⟩

theorem test_possibilities_sim (cs ct : List Coord) (B : Board) (r : RunData)
    (limit fuel : Nat) {s t : SState} (h : simAny cs ct s t) :
    (test_possibilities B r limit fuel s = none ∧
     test_possibilities B r limit fuel t = none) ∨
    ∃ b s' t', test_possibilities B r limit fuel s = some (s', b) ∧
      test_possibilities B r limit fuel t = some (t', b) ∧ simAny cs ct s' t' := by
  have h0 := h
  obtain ⟨L, ⟨⟨h1, h2, h3, h4, h5⟩, hs, ht⟩⟩ := h
  simp only [test_possibilities, ← h1]
  exact tpTail_sim cs ct B r limit fuel _ h0

theorem fillPass_sim (cs ct : List Coord) (B : Board) (fuel : Nat) :
    ∀ (rids : List Nat) (acc : Int) (s t : SState), simAny cs ct s t →
      (fillPass B fuel rids acc s = none ∧ fillPass B fuel rids acc t = none) ∨
      ∃ cf s' t', fillPass B fuel rids acc s = some (cf, s') ∧
        fillPass B fuel rids acc t = some (cf, t') ∧ simAny cs ct s' t' := by
  intro rids
  induction rids with
  | nil =>
    intro acc s t h
    right
    exact ⟨acc, s, t, rfl, rfl, h⟩
  | cons rid rest ih =>
    intro acc s t h
    obtain ⟨L, hL⟩ := h
    have hfc := fillCells_sim cs ct B false fuel rid L s t hL
    rcases hA : fillCells B rid false fuel s with _ | ⟨s₁, res⟩
    · rcases hB : fillCells B rid false fuel t with _ | ⟨t₁, res'⟩
      · left
        exact ⟨by simp only [fillPass, hA], by simp only [fillPass, hB]⟩
      · rw [hA, hB] at hfc
        exact False.elim hfc
    · rcases hB : fillCells B rid false fuel t with _ | ⟨t₁, res'⟩
      · rw [hA, hB] at hfc
        exact False.elim hfc
      · rw [hA, hB] at hfc
        obtain ⟨hre, hext⟩ := hfc
        subst hre
        obtain ⟨Q, hQ⟩ := hext
        rcases ih (acc + res) s₁ t₁ ⟨Q ++ L, hQ⟩ with
          ⟨hA2, hB2⟩ | ⟨cf, s', t', hA2, hB2, hany⟩
        · left
          constructor
          · simp only [fillPass, hA]
            exact hA2
          · simp only [fillPass, hB]
            exact hB2
        · right
          refine ⟨cf, s', t', ?_, ?_, hany⟩
          · simp only [fillPass, hA]
            exact hA2
          · simp only [fillPass, hB]
            exact hB2

theorem testPass_sim (cs ct : List Coord) (B : Board) (limit fuel : Nat) :
    ∀ (rids : List Nat) (allT : Bool) (s t : SState), simAny cs ct s t →
      (testPass B limit fuel rids allT s = none ∧
       testPass B limit fuel rids allT t = none) ∨
      ∃ b s' t', testPass B limit fuel rids allT s = some (b, s') ∧
        testPass B limit fuel rids allT t = some (b, t') ∧ simAny cs ct s' t' := by
  intro rids
  induction rids with
  | nil =>
    intro allT s t h
    right
    exact ⟨allT, s, t, rfl, rfl, h⟩
  | cons rid rest ih =>
    intro allT s t h
    cases hr : B.runs.get? rid with
    | none =>
      left
      exact ⟨by simp only [testPass, hr], by simp only [testPass, hr]⟩
    | some r =>
      rcases test_possibilities_sim cs ct B r limit fuel h with
        ⟨ha, hb⟩ | ⟨b, s₁, t₁, ha, hb, hany⟩
      · left
        exact ⟨by simp only [testPass, hr, ha], by simp only [testPass, hr, hb]⟩
      · rcases ih (allT && b) s₁ t₁ hany with
          ⟨hA2, hB2⟩ | ⟨b2, s', t', hA2, hB2, hany2⟩
        · left
          constructor
          · simp only [testPass, hr, ha]
            exact hA2
          · simp only [testPass, hr, hb]
            exact hB2
        · right
          refine ⟨b2, s', t', ?_, ?_, hany2⟩
          · simp only [testPass, hr, ha]
            exact hA2
          · simp only [testPass, hr, hb]
            exact hB2

theorem fallbackSelect_eq {s t : SState} (h4 : s.solutions = t.solutions)
    (h2 : s.min_remaining = t.min_remaining) :
    fallbackSelect s = fallbackSelect t := by
  simp only [fallbackSelect, h4, h2]

theorem printSolutions_eq {s t : SState} (h2 : s.min_remaining = t.min_remaining)
    (h4 : s.solutions = t.solutions) (h5 : s.partCounts = t.partCounts) :
    printSolutions s = printSolutions t := by
  simp only [printSolutions, h2, h4, h5]

theorem solveLoop_sim (cs ct : List Coord) (B : Board) (fuel : Nat) :
    ∀ (rounds iterations : Nat) (cf : Int) (limit : Nat) (s t : SState),
      simAny cs ct s t →
      (solveLoop B fuel rounds iterations cf limit s = none ∧
       solveLoop B fuel rounds iterations cf limit t = none) ∨
      ∃ s' t' it2 lim2,
        solveLoop B fuel rounds iterations cf limit s = some (s', it2, lim2) ∧
        solveLoop B fuel rounds iterations cf limit t = some (t', it2, lim2) ∧
        simAny cs ct s' t' := by
  intro rounds
  induction rounds with
  | zero =>
    intro it cf lim s t h
    right
    exact ⟨s, t, it, lim, rfl, rfl, h⟩
  | succ rounds ih =>
    intro it cf lim s t h
    have h0 := h
    obtain ⟨L, ⟨⟨h1, h2, h3, h4, h5⟩, hs, ht⟩⟩ := h
    by_cases hg : s.solution.length < B.hmap.length ∧ it < 45
    · have hg' : t.solution.length < B.hmap.length ∧ it < 45 := by
        rw [← h1]; exact hg
      rcases fillPass_sim cs ct B fuel (B.uniqueH ++ B.uniqueV) 0 s t h0 with
        ⟨ha, hb⟩ | ⟨cf', s₁, t₁, ha, hb, hany1⟩
      · left
        exact ⟨by simp only [solveLoop, if_pos hg, ha],
          by simp only [solveLoop, if_pos hg', hb]⟩
      · by_cases hcf : cf = 0
        · rcases testPass_sim cs ct B lim fuel (B.uniqueH ++ B.uniqueV) true s₁ t₁ hany1 with
            ⟨hc, hd⟩ | ⟨allT, s₂, t₂, hc, hd, hany2⟩
          · left
            exact ⟨by simp only [solveLoop, if_pos hg, ha, if_pos hcf, hc],
              by simp only [solveLoop, if_pos hg', hb, if_pos hcf, hd]⟩
          · obtain ⟨L₂, ⟨⟨g1, g2, g3, g4, g5⟩, gs, gt⟩⟩ := hany2
            have hany2' : simAny cs ct s₂ t₂ := ⟨L₂, ⟨⟨g1, g2, g3, g4, g5⟩, gs, gt⟩⟩
            by_cases hat : allT = true
            · by_cases hmr : s₂.min_remaining > 0
              · have hmr' : t₂.min_remaining > 0 := by rw [← g2]; exact hmr
                have hfb : fallbackSelect t₂ = fallbackSelect s₂ :=
                  (fallbackSelect_eq g4 g2).symm
                cases hfs : fallbackSelect s₂ with
                | some dg =>
                  left
                  constructor
                  · simp only [solveLoop, if_pos hg, ha, if_pos hcf, hc, if_pos hat,
                      if_pos hmr, hfs]
                  · simp only [solveLoop, if_pos hg', hb, if_pos hcf, hd, if_pos hat,
                      if_pos hmr', hfb, hfs]
                | none =>
                  rcases ih (it + 1) cf' (lim * 2) s₂ t₂ hany2' with
                    ⟨hA2, hB2⟩ | ⟨s', t', it2, lim2, hA2, hB2, hany3⟩
                  · left
                    constructor
                    · simp only [solveLoop, if_pos hg, ha, if_pos hcf, hc, if_pos hat,
                        if_pos hmr, hfs]
                      exact hA2
                    · simp only [solveLoop, if_pos hg', hb, if_pos hcf, hd, if_pos hat,
                        if_pos hmr', hfb, hfs]
                      exact hB2
                  · right
                    refine ⟨s', t', it2, lim2, ?_, ?_, hany3⟩
                    · simp only [solveLoop, if_pos hg, ha, if_pos hcf, hc, if_pos hat,
                        if_pos hmr, hfs]
                      exact hA2
                    · simp only [solveLoop, if_pos hg', hb, if_pos hcf, hd, if_pos hat,
                        if_pos hmr', hfb, hfs]
                      exact hB2
              · have hmr' : ¬ t₂.min_remaining > 0 := by rw [← g2]; exact hmr
                right
                refine ⟨s₂, t₂, it + 1, lim, ?_, ?_, hany2'⟩
                · simp only [solveLoop, if_pos hg, ha, if_pos hcf, hc, if_pos hat,
                    if_neg hmr]
                · simp only [solveLoop, if_pos hg', hb, if_pos hcf, hd, if_pos hat,
                    if_neg hmr']
            · rcases ih (it + 1) cf' (lim * 2) s₂ t₂ hany2' with
                ⟨hA2, hB2⟩ | ⟨s', t', it2, lim2, hA2, hB2, hany3⟩
              · left
                constructor
                · simp only [solveLoop, if_pos hg, ha, if_pos hcf, hc, if_neg hat]
                  exact hA2
                · simp only [solveLoop, if_pos hg', hb, if_pos hcf, hd, if_neg hat]
                  exact hB2
              · right
                refine ⟨s', t', it2, lim2, ?_, ?_, hany3⟩
                · simp only [solveLoop, if_pos hg, ha, if_pos hcf, hc, if_neg hat]
                  exact hA2
                · simp only [solveLoop, if_pos hg', hb, if_pos hcf, hd, if_neg hat]
                  exact hB2
        · rcases ih (it + 1) cf' lim s₁ t₁ hany1 with
            ⟨hA2, hB2⟩ | ⟨s', t', it2, lim2, hA2, hB2, hany3⟩
          · left
            constructor
            · simp only [solveLoop, if_pos hg, ha, if_neg hcf]
              exact hA2
            · simp only [solveLoop, if_pos hg', hb, if_neg hcf]
              exact hB2
          · right
            refine ⟨s', t', it2, lim2, ?_, ?_, hany3⟩
            · simp only [solveLoop, if_pos hg, ha, if_neg hcf]
              exact hA2
            · simp only [solveLoop, if_pos hg', hb, if_neg hcf]
              exact hB2
    · have hg' : ¬ (t.solution.length < B.hmap.length ∧ it < 45) := by
        rw [← h1]; exact hg
      right
      exact ⟨s, t, it, lim, by simp only [solveLoop, if_neg hg],
        by simp only [solveLoop, if_neg hg'], h0⟩

/-- Construction states reached from two solver runs that differ only in
the inherited class-level `min_remaining`: every puzzle-derived field
agrees, and `min_remaining` itself agrees as soon as one run has been
constructed (every `Run.__init__` overwrites it with `len(self.hmap)`);
before that, each side still holds its inherited value and no cell has
been mapped. -/
def bstRel (mr0 mr0' : Int) (st st' : BuildSt) : Prop :=
  st.runs = st'.runs ∧ st.hmap = st'.hmap ∧ st.vmap = st'.vmap ∧
    st.uniqueH = st'.uniqueH ∧ st.uniqueV = st'.uniqueV ∧ st.width = st'.width ∧
    ((st.hmap = [] ∧ st.min_remaining = mr0 ∧ st'.min_remaining = mr0') ∨
      st.min_remaining = st'.min_remaining)

def bstRelE (mr0 mr0' : Int) :
    Except BuildErr BuildSt → Except BuildErr BuildSt → Prop
  | Except.error e, Except.error e' => e = e'
  | Except.ok st, Except.ok st' => bstRel mr0 mr0' st st'
  | _, _ => False

def bstRelT (mr0 mr0' : Int) :
    Except BuildErr (Bool × List (List PCell) × BuildSt) →
      Except BuildErr (Bool × List (List PCell) × BuildSt) → Prop
  | Except.error e, Except.error e' => e = e'
  | Except.ok (v, cols, st), Except.ok (v', cols', st') =>
      v = v' ∧ cols = cols' ∧ bstRel mr0 mr0' st st'
  | _, _ => False

theorem add_run_rel (mr0 mr0' : Int) {st st' : BuildSt} (start : Coord)
    (length total : Nat) (vert : Bool) (h : bstRel mr0 mr0' st st') :
    bstRelE mr0 mr0' (add_run start length total vert st)
      (add_run start length total vert st') := by
  obtain ⟨e1, e2, e3, e4, e5, e6, _⟩ := h
  by_cases hl : length = 0
  · simp only [add_run, if_pos hl]
    rfl
  · by_cases hseq : (get_unique_sums total length).length = 0
    · simp only [add_run, if_neg hl, if_pos hseq]
      rfl
    · simp only [add_run, if_neg hl, if_neg hseq]
      show bstRel mr0 mr0' _ _
      refine ⟨?_, ?_, ?_, ?_, ?_, ?_, Or.inr ?_⟩ <;>
        simp only [e1, e2, e3, e4, e5, e6]

theorem parseSeqAux_rel (mr0 mr0' : Int) (idx : Nat) (vert : Bool) :
    ∀ (cells : List (Nat × PCell)) (total : Nat) (start : Coord) (length : Nat)
      {st st' : BuildSt}, bstRel mr0 mr0' st st' →
      bstRelE mr0 mr0' (parseSeqAux idx vert cells total start length st)
        (parseSeqAux idx vert cells total start length st') := by
  intro cells
  induction cells with
  | nil =>
    intro total start length st st' h
    by_cases ht : total ≠ 0
    · simp only [parseSeqAux, if_pos ht]
      exact add_run_rel mr0 mr0' start length total vert h
    · simp only [parseSeqAux, if_neg ht]
      exact h
  | cons pc rest ih =>
    obtain ⟨pitch, cell⟩ := pc
    intro total start length st st' h
    cases cell with
    | num n =>
      by_cases hn : n > 0
      · by_cases ht : total ≠ 0
        · have har := add_run_rel mr0 mr0' start length total vert h
          cases hA : add_run start length total vert st with
          | error e =>
            cases hB : add_run start length total vert st' with
            | error e' =>
              rw [hA, hB] at har
              have he : e = e' := har
              subst he
              simp only [parseSeqAux, if_pos hn, if_pos ht, hA, hB]
              rfl
            | ok st₁' =>
              rw [hA, hB] at har
              exact False.elim har
          | ok st₁ =>
            cases hB : add_run start length total vert st' with
            | error e' =>
              rw [hA, hB] at har
              exact False.elim har
            | ok st₁' =>
              rw [hA, hB] at har
              simp only [parseSeqAux, if_pos hn, if_pos ht, hA, hB]
              exact ih n (if vert then (idx, pitch + 1) else (pitch + 1, idx)) 0 har
        · simp only [parseSeqAux, if_pos hn, if_neg ht]
          exact ih n (if vert then (idx, pitch + 1) else (pitch + 1, idx)) 0 h
      · simp only [parseSeqAux, if_neg hn]
        exact ih total start (length + 1) h
    | other =>
      simp only [parseSeqAux]
      exact ih total start length h

theorem buildLinesAux_rel (mr0 mr0' : Int) :
    ∀ (lines : List (List PCell)) (lineNo : Nat) (vert : Bool)
      (columns : List (List PCell)) {st st' : BuildSt}, bstRel mr0 mr0' st st' →
      bstRelT mr0 mr0' (buildLinesAux lines lineNo vert columns st)
        (buildLinesAux lines lineNo vert columns st') := by
  intro lines
  induction lines with
  | nil =>
    intro lineNo vert columns st st' h
    exact ⟨rfl, rfl, h⟩
  | cons line rest ih =>
    intro lineNo vert columns st st' h
    by_cases hline : line = []
    · simp only [buildLinesAux, if_pos hline]
      exact ih (lineNo + 1) true columns h
    · have h₁ : bstRel mr0 mr0' { st with width := line.length }
          { st' with width := line.length } := by
        obtain ⟨e1, e2, e3, e4, e5, e6, e7⟩ := h
        exact ⟨e1, e2, e3, e4, e5, rfl, e7⟩
      by_cases hv : vert = true
      · cases hac : appendColumns
            (if columns = [] then line.map (fun _ => ([] : List PCell)) else columns)
            line with
        | error e =>
          simp only [buildLinesAux, if_neg hline, if_pos hv, hac]
          rfl
        | ok cols1 =>
          simp only [buildLinesAux, if_neg hline, if_pos hv, hac]
          exact ih (lineNo + 1) vert cols1 h₁
      · have hps := parseSeqAux_rel mr0 mr0' lineNo false line.enum 0 (0, 0) 0 h₁
        cases hA : parse_sequence lineNo line false { st with width := line.length } with
        | error e =>
          cases hB : parse_sequence lineNo line false { st' with width := line.length } with
          | error e' =>
            rw [show parse_sequence lineNo line false { st with width := line.length }
                = parseSeqAux lineNo false line.enum 0 (0, 0) 0
                    { st with width := line.length } from rfl] at hA
            rw [show parse_sequence lineNo line false { st' with width := line.length }
                = parseSeqAux lineNo false line.enum 0 (0, 0) 0
                    { st' with width := line.length } from rfl] at hB
            rw [hA, hB] at hps
            have he : e = e' := hps
            subst he
            simp only [buildLinesAux, if_neg hline, if_neg hv, parse_sequence, hA, hB]
            rfl
          | ok st₂' =>
            rw [parse_sequence] at hA hB
            rw [hA, hB] at hps
            exact False.elim hps
        | ok st₂ =>
          cases hB : parse_sequence lineNo line false { st' with width := line.length } with
          | error e' =>
            rw [parse_sequence] at hA hB
            rw [hA, hB] at hps
            exact False.elim hps
          | ok st₂' =>
            have hA' := hA
            have hB' := hB
            rw [parse_sequence] at hA' hB'
            rw [hA', hB'] at hps
            simp only [buildLinesAux, if_neg hline, if_neg hv, hA, hB]
            exact ih (lineNo + 1) vert columns hps

theorem parseColumns_rel (mr0 mr0' : Int) :
    ∀ (columns : List (List PCell)) (idx : Nat) {st st' : BuildSt},
      bstRel mr0 mr0' st st' →
      bstRelE mr0 mr0' (parseColumns columns idx st) (parseColumns columns idx st') := by
  intro columns
  induction columns with
  | nil =>
    intro idx st st' h
    exact h
  | cons col rest ih =>
    intro idx st st' h
    have hps := parseSeqAux_rel mr0 mr0' idx true col.enum 0 (0, 0) 0 h
    cases hA : parse_sequence idx col true st with
    | error e =>
      cases hB : parse_sequence idx col true st' with
      | error e' =>
        have hA' := hA
        have hB' := hB
        rw [parse_sequence] at hA' hB'
        rw [hA', hB'] at hps
        have he : e = e' := hps
        subst he
        simp only [parseColumns, hA, hB]
        rfl
      | ok st₁' =>
        have hA' := hA
        have hB' := hB
        rw [parse_sequence] at hA' hB'
        rw [hA', hB'] at hps
        exact False.elim hps
    | ok st₁ =>
      cases hB : parse_sequence idx col true st' with
      | error e' =>
        have hA' := hA
        have hB' := hB
        rw [parse_sequence] at hA' hB'
        rw [hA', hB'] at hps
        exact False.elim hps
      | ok st₁' =>
        have hA' := hA
        have hB' := hB
        rw [parse_sequence] at hA' hB'
        rw [hA', hB'] at hps
        simp only [parseColumns, hA, hB]
        exact ih (idx + 1) hps

theorem buildSolver_rel (lines : List (List PCell)) (mr0 mr0' : Int) :
    (∃ e, buildSolver lines mr0 = Except.error e ∧
      buildSolver lines mr0' = Except.error e) ∨
    ∃ B mr mr', buildSolver lines mr0 = Except.ok (B, mr) ∧
      buildSolver lines mr0' = Except.ok (B, mr') ∧
      (mr = mr' ∨ (B.hmap = [] ∧ mr = mr0 ∧ mr' = mr0')) := by
  have hinit : bstRel mr0 mr0' ⟨[], [], [], [], [], 0, mr0⟩ ⟨[], [], [], [], [], 0, mr0'⟩ :=
    ⟨rfl, rfl, rfl, rfl, rfl, rfl, Or.inl ⟨rfl, rfl, rfl⟩⟩
  have hbl := buildLinesAux_rel mr0 mr0' lines 0 false [] hinit
  cases hA : buildLinesAux lines 0 false [] ⟨[], [], [], [], [], 0, mr0⟩ with
  | error e =>
    cases hB : buildLinesAux lines 0 false [] ⟨[], [], [], [], [], 0, mr0'⟩ with
    | error e' =>
      rw [hA, hB] at hbl
      have he : e = e' := hbl
      subst he
      left
      exact ⟨e, by simp only [buildSolver, hA], by simp only [buildSolver, hB]⟩
    | ok q =>
      obtain ⟨v', cols', st''⟩ := q
      rw [hA, hB] at hbl
      exact False.elim hbl
  | ok q =>
    obtain ⟨v, cols, st⟩ := q
    cases hB : buildLinesAux lines 0 false [] ⟨[], [], [], [], [], 0, mr0'⟩ with
    | error e' =>
      rw [hA, hB] at hbl
      exact False.elim hbl
    | ok q' =>
      obtain ⟨v', cols', st'⟩ := q'
      rw [hA, hB] at hbl
      obtain ⟨hveq, hceq, hrel⟩ := hbl
      subst hveq
      subst hceq
      by_cases hcols : cols ≠ []
      · have hpc := parseColumns_rel mr0 mr0' cols 0 hrel
        cases hC : parseColumns cols 0 st with
        | error e =>
          cases hD : parseColumns cols 0 st' with
          | error e' =>
            rw [hC, hD] at hpc
            have he : e = e' := hpc
            subst he
            left
            exact ⟨e, by simp only [buildSolver, hA, if_pos hcols, hC],
              by simp only [buildSolver, hB, if_pos hcols, hD]⟩
          | ok st₂' =>
            rw [hC, hD] at hpc
            exact False.elim hpc
        | ok st₂ =>
          cases hD : parseColumns cols 0 st' with
          | error e' =>
            rw [hC, hD] at hpc
            exact False.elim hpc
          | ok st₂' =>
            rw [hC, hD] at hpc
            obtain ⟨f1, f2, f3, f4, f5, f6, f7⟩ := hpc
            right
            refine ⟨⟨st₂.runs, st₂.hmap, st₂.vmap, st₂.uniqueH, st₂.uniqueV,
              st₂.width, (cols.headD []).length⟩, st₂.min_remaining, st₂'.min_remaining,
              by simp only [buildSolver, hA, if_pos hcols, hC],
              ?_, ?_⟩
            · simp only [buildSolver, hB, if_pos hcols, hD, f1, f2, f3, f4, f5, f6]
            · rcases f7 with ⟨hh, hm1, hm2⟩ | hmr
              · exact Or.inr ⟨hh, hm1, hm2⟩
              · exact Or.inl hmr
      · obtain ⟨f1, f2, f3, f4, f5, f6, f7⟩ := hrel
        right
        refine ⟨⟨st.runs, st.hmap, st.vmap, st.uniqueH, st.uniqueV, st.width, 0⟩,
          st.min_remaining, st'.min_remaining,
          by simp only [buildSolver, hA, if_neg hcols],
          ?_, ?_⟩
        · simp only [buildSolver, hB, if_neg hcols, f1, f2, f3, f4, f5, f6]
        · rcases f7 with ⟨hh, hm1, hm2⟩ | hmr
          · exact Or.inr ⟨hh, hm1, hm2⟩
          · exact Or.inl hmr

/-- C9: solving the same puzzle text twice yields the same result.
`solveModel` runs the full pipeline (construction, the solve loop, the
final status and `print_solutions` report) from an arbitrary persistent
class-level `Run` state; for any two inherited class states the reported
outcome — failure flag and printed Solution Records — is identical.  The
inherited undo stack is never popped into (every `undo` targets a
coordinate pushed by the same candidate's commits), the guess dictionaries
are only ever deleted from, and `Run.min_remaining` is overwritten by the
first constructed run or irrelevant when no run exists. -/
theorem C9_solve_deterministic (lines : List (List PCell))
    (cls cls' : ClassState) (fuel : Nat) :
    solveModel lines cls fuel = solveModel lines cls' fuel := by
  rcases buildSolver_rel lines cls.min_remaining cls'.min_remaining with
    ⟨e, hA, hB⟩ | ⟨B, mr, mr', hA, hB, hmr⟩
  · simp only [solveModel, hA, hB]
  · simp only [solveModel, hA, hB]
    rcases hmr with hmr | ⟨hhm, hm1, hm2⟩
    · subst hmr
      have hinit : simAny cls.coord_changes cls'.coord_changes
          (⟨[], cls.coord_changes, cls.hGuess, cls.vGuess, mr,
            fun _ _ => ∅, [], []⟩ : SState)
          (⟨[], cls'.coord_changes, cls'.hGuess, cls'.vGuess, mr,
            fun _ _ => ∅, [], []⟩ : SState) :=
        ⟨[], ⟨⟨rfl, rfl, rfl, rfl, rfl⟩, rfl, rfl⟩⟩
      rcases solveLoop_sim cls.coord_changes cls'.coord_changes B fuel
          45 0 1 2 _ _ hinit with
        ⟨hC, hD⟩ | ⟨s', t', it2, lim2, hC, hD, hany⟩
      · simp only [hC, hD]
      · simp only [hC, hD]
        obtain ⟨L, ⟨⟨g1, g2, g3, g4, g5⟩, gs, gt⟩⟩ := hany
        by_cases hlen : s'.solution.length ≠ B.hmap.length
        · have hlen' : t'.solution.length ≠ B.hmap.length := by
            rw [← g1]; exact hlen
          simp only [if_pos hlen, if_pos hlen']
          rw [printSolutions_eq g2 g4 g5]
        · have hlen' : ¬ t'.solution.length ≠ B.hmap.length := by
            rw [← g1]; exact hlen
          simp only [if_neg hlen, if_neg hlen']
          have hsim2 : simL cls.coord_changes cls'.coord_changes L
              { s' with min_remaining := 0 } { t' with min_remaining := 0 } :=
            ⟨⟨g1, rfl, g3, g4, g5⟩, gs, gt⟩
          obtain ⟨_, ⟨⟨k1, k2, k3, k4, k5⟩, _, _⟩⟩ := add_solution_sim 0 hsim2
          rw [printSolutions_eq k2 k4 k5]
    · have hloop : ∀ (rounds : Nat) (s : SState), s.solution = [] →
          solveLoop B fuel (rounds + 1) 0 1 2 s = some (s, 0, 2) := by
        intro rounds s hsol
        have hng : ¬ (s.solution.length < B.hmap.length ∧ (0 : Nat) < 45) := by
          rw [hsol, hhm]
          simp
        simp only [solveLoop, if_neg hng]
      rw [show (45 : Nat) = 44 + 1 from rfl]
      rw [hloop 44 (⟨[], cls.coord_changes, cls.hGuess, cls.vGuess, mr,
            fun _ _ => ∅, [], []⟩ : SState) rfl,
          hloop 44 (⟨[], cls'.coord_changes, cls'.hGuess, cls'.vGuess, mr',
            fun _ _ => ∅, [], []⟩ : SState) rfl,
          hhm]
      rfl
